import Mathlib

/-!
Verification development for the FRANZ screen-agent repository
(`main.py`, `drawing.py`).

The Python sources are shallowly embedded: strings become `List Char`,
byte buffers become `List ℕ`, Python ints become `ℤ`/`ℕ`, and the
IEEE-754 binary64 arithmetic used by `normalize_coord` is modelled
exactly by round-to-nearest-even on `ℚ` (unbounded exponent range,
which is exact for all magnitudes arising here).  All definitions are
computable and structurally recursive so that concrete runs can be
checked by `decide`.
-/

/-! ## Character classes (ASCII model of Python's `str.strip`, `\s`, `\w`, `\d`) -/

/-- The double-quote character. -/
def dquote : Char := Char.ofNat 34

/-- The single-quote character. -/
def squote : Char := Char.ofNat 39

/-- ASCII whitespace, as stripped by Python `str.strip()` and matched by `\s`. -/
def isSpaceC (c : Char) : Bool :=
  c.toNat = 32 || c.toNat = 9 || c.toNat = 10 || c.toNat = 13 || c.toNat = 11 || c.toNat = 12

/-- ASCII word characters, as matched by `\w` (used for the `\b` boundary). -/
def isWordC (c : Char) : Bool :=
  (48 ≤ c.toNat && c.toNat ≤ 57) || (65 ≤ c.toNat && c.toNat ≤ 90) ||
    (97 ≤ c.toNat && c.toNat ≤ 122) || c.toNat = 95

/-- ASCII decimal digits, as matched by `\d`. -/
def isDigitC (c : Char) : Bool :=
  48 ≤ c.toNat && c.toNat ≤ 57

/-- Numeric value of a digit character. -/
def digVal (c : Char) : ℕ := c.toNat - 48

/-- Digit character of a value below ten. -/
def dChar (d : ℕ) : Char := Char.ofNat (48 + d)

/-! ## Python string helpers -/

/-- Remove trailing ASCII whitespace (Python `str.rstrip`). -/
def rstrip (l : List Char) : List Char :=
  (l.reverse.dropWhile isSpaceC).reverse

/-- Remove leading and trailing ASCII whitespace (Python `str.strip`). -/
def strip (l : List Char) : List Char :=
  rstrip (l.dropWhile isSpaceC)

/-- Python `str.startswith`. -/
def startsWithC (l pre : List Char) : Bool :=
  pre.isPrefixOf l

/-! ## The action-call matcher (`_FUNC_RE` from `main.py`)

`_FUNC_RE = \b(left_click|right_click|double_left_click|drag|type)\s*\(([^)]*)\)`.
`funcSearch` performs `_FUNC_RE.search`: the scan runs left to right and at
each position tries the five alternatives in order; a successful match
returns the function name (group 1) and the argument text (group 2, the
maximal run of non-`)` characters followed by a mandatory `)`).
-/

/-- The five recognized action keywords, in the regex's alternation order. -/
inductive FuncName where
  | left_click
  | right_click
  | double_left_click
  | drag
  | type
deriving DecidableEq, Repr

/-- Keyword spelling of a `FuncName`. -/
def kwChars : FuncName → List Char
  | .left_click => ("left_click").toList
  | .right_click => ("right_click").toList
  | .double_left_click => ("double_left_click").toList
  | .drag => ("drag").toList
  | .type => ("type").toList

/-- Alternation order of `_FUNC_RE`. -/
def kwOrder : List FuncName :=
  [.left_click, .right_click, .double_left_click, .drag, .type]

/-- Try to match `name\s*\(([^)]*)\)` for one keyword at the head of `s`. -/
def tryKw (f : FuncName) (s : List Char) : Option (FuncName × List Char) :=
  let kw := kwChars f
  if kw.isPrefixOf s then
    let rest1 := (s.drop kw.length).dropWhile isSpaceC
    match rest1 with
    | [] => none
    | c :: rest2 =>
      if c = '(' then
        match rest2.dropWhile (fun d => !(d = ')')) with
        | [] => none
        | _ :: _ => some (f, rest2.takeWhile (fun d => !(d = ')')))
      else none
  else none

/-- Try the five alternatives, in order, at the head of `s`. -/
def tryMatchAt (s : List Char) : Option (FuncName × List Char) :=
  (tryKw .left_click s).orElse fun _ =>
  (tryKw .right_click s).orElse fun _ =>
  (tryKw .double_left_click s).orElse fun _ =>
  (tryKw .drag s).orElse fun _ =>
  tryKw .type s

/-- Word-boundary test: `\b` holds before the keyword iff the previous
character (if any) is a non-word character (keywords start with a letter). -/
def boundaryOK : Option Char → Bool
  | none => true
  | some p => !isWordC p

/-- Scan for the leftmost match, remembering the previous character. -/
def funcSearchGo : Option Char → List Char → Option (FuncName × List Char)
  | _, [] => none
  | prev, c :: rest =>
    match (if boundaryOK prev then tryMatchAt (c :: rest) else none) with
    | some r => some r
    | none => funcSearchGo (some c) rest

/-- `_FUNC_RE.search`: leftmost match of the single-call pattern. -/
def funcSearch (s : List Char) : Option (FuncName × List Char) :=
  funcSearchGo none s

/-! ## Integer token extraction (`re.findall(r"-?\d+", raw_args)`) -/

/-- Scanner state for `-?\d+` token extraction. -/
inductive ScanSt where
  | plain
  | minus
  | num (neg : Bool) (acc : ℕ)

/-- Value of a finished token. -/
def mkTok (neg : Bool) (acc : ℕ) : ℤ :=
  if neg then -(acc : ℤ) else (acc : ℤ)

/-- One left-to-right pass emitting every maximal `-?\d+` token, exactly as
`re.findall` does (a `-` only joins a token when immediately followed by a
digit). -/
def findIntsGo : ScanSt → List Char → List ℤ
  | .plain, [] => []
  | .minus, [] => []
  | .num neg acc, [] => [mkTok neg acc]
  | .plain, c :: rest =>
    if isDigitC c then findIntsGo (.num false (digVal c)) rest
    else if c = '-' then findIntsGo .minus rest
    else findIntsGo .plain rest
  | .minus, c :: rest =>
    if isDigitC c then findIntsGo (.num true (digVal c)) rest
    else if c = '-' then findIntsGo .minus rest
    else findIntsGo .plain rest
  | .num neg acc, c :: rest =>
    if isDigitC c then findIntsGo (.num neg (acc * 10 + digVal c)) rest
    else
      mkTok neg acc ::
        (if c = '-' then findIntsGo .minus rest else findIntsGo .plain rest)

/-- All integer tokens of a string (`re.findall(r"-?\d+", s)` with `int`). -/
def findInts (s : List Char) : List ℤ :=
  findIntsGo .plain s

/-! ## `_parse_args` and `format_command` from `main.py` -/

/-- Parsed argument payload: coordinates for the four pointer actions,
text for `type`. -/
inductive ActArgs where
  | coords (ns : List ℤ)
  | text (t : List Char)
deriving DecidableEq, Repr

/-- Strip one layer of matching quotes (both ends `"` or both ends `'`). -/
def stripQuotes (t : List Char) : List Char :=
  if (t.head? = some dquote ∧ t.getLast? = some dquote) ∨
      (t.head? = some squote ∧ t.getLast? = some squote) then
    (t.drop 1).dropLast
  else t

/-- `_parse_args(func_name, raw_args)` from `main.py`. -/
def parse_args (f : FuncName) (raw : List Char) : Option ActArgs :=
  match f with
  | .type =>
    let t := stripQuotes (strip raw)
    if t = [] then none else some (.text t)
  | .drag =>
    let ns := findInts raw
    if 4 ≤ ns.length then
      some (.coords [ns.getD 0 0, ns.getD 1 0, ns.getD 2 0, ns.getD 3 0])
    else none
  | _ =>
    let ns := findInts raw
    if 2 ≤ ns.length then some (.coords [ns.getD 0 0, ns.getD 1 0]) else none

/-! ## Rendering an integer the way Python `str` does -/

/-- Decimal digits of `n`, most significant first (empty for `0`). -/
def natToCharsGo : ℕ → ℕ → List Char
  | 0, _ => []
  | fuel + 1, n =>
    if n = 0 then [] else natToCharsGo fuel (n / 10) ++ [dChar (n % 10)]

/-- Python `str` of a natural number. -/
def natToChars (n : ℕ) : List Char :=
  if n = 0 then [dChar 0] else natToCharsGo n n

/-- Python `str` of an integer. -/
def intToChars (i : ℤ) : List Char :=
  if i < 0 then '-' :: natToChars i.natAbs else natToChars i.toNat

/-- Python `","` `.join`. -/
def joinComma : List (List Char) → List Char
  | [] => []
  | [x] => x
  | x :: xs => x ++ ',' :: joinComma xs

/-- The `str(p)` renderings of the elements of the Python `params` list. -/
def paramStrs : ActArgs → List (List Char)
  | .coords ns => ns.map intToChars
  | .text t => [t]

/-- `format_command(func_name, params)` from `main.py`:
`type` renders as `type("params[0]")`, everything else as
`name(str(p0),str(p1),...)`. -/
def format_command (f : FuncName) (a : ActArgs) : List Char :=
  if f = .type then
    (kwChars .type) ++ '(' :: dquote :: ((paramStrs a).headD [] ++ [dquote, ')'])
  else
    (kwChars f) ++ '(' :: (joinComma (paramStrs a) ++ [')'])

/-! ## Exact model of IEEE-754 binary64 arithmetic (`normalize_coord`)

`normalize_coord(coord, max_val)` in `drawing.py` is
`int((coord / 1000.0) * max_val)`.  CPython converts the ints to binary64,
divides, multiplies, and truncates toward zero; each float operation is
correctly rounded to nearest, ties to even.  `rnd` below is that rounding
on exact rationals, with 53-bit significands and an unbounded exponent
range (no value reachable from the claims overflows or goes subnormal).
-/

/-- Fueled base-two logarithm (structurally recursive so the kernel can
evaluate it). -/
def log2fuel : ℕ → ℕ → ℕ
  | 0, _ => 0
  | fuel + 1, n => if 2 ≤ n then log2fuel fuel (n / 2) + 1 else 0

/-- Floor base-two logarithm of a natural number. -/
def natLog2 (n : ℕ) : ℕ := log2fuel n n

/-- `2^e` for an integer exponent, as a rational. -/
def pow2 (e : ℤ) : ℚ :=
  if 0 ≤ e then ((2 ^ e.toNat : ℕ) : ℚ) else (((2 ^ (-e).toNat : ℕ) : ℚ))⁻¹

/-- Round a rational to the nearest integer, ties to even. -/
def rhe (q : ℚ) : ℤ :=
  if q - (⌊q⌋ : ℚ) < 1 / 2 then ⌊q⌋
  else if (1 : ℚ) / 2 < q - (⌊q⌋ : ℚ) then ⌊q⌋ + 1
  else if Even ⌊q⌋ then ⌊q⌋ else ⌊q⌋ + 1

/-- Floor base-two logarithm of a positive rational. -/
def flog2 (q : ℚ) : ℤ :=
  let d : ℤ := (natLog2 q.num.toNat : ℤ) - (natLog2 q.den : ℤ)
  if q < pow2 d then d - 1 else d

/-- Round a positive rational to 53 significant bits, nearest, ties to even. -/
def rndPos (q : ℚ) : ℚ :=
  ((rhe (q * pow2 (52 - flog2 q)) : ℤ) : ℚ) * pow2 (flog2 q - 52)

/-- Binary64 rounding of an exact rational (round to nearest, ties to even). -/
def rnd (q : ℚ) : ℚ :=
  if 0 < q then rndPos q else if q < 0 then -(rndPos (-q)) else 0

/-- Python `int()` on a float value: truncation toward zero. -/
def truncQ (q : ℚ) : ℤ :=
  if 0 ≤ q then ⌊q⌋ else -⌊-q⌋

/-- `normalize_coord(coord, max_val)` from `drawing.py`:
`int((coord / 1000.0) * max_val)` under binary64 arithmetic
(`coord` and `max_val` are converted to binary64, the division and the
multiplication are each correctly rounded). -/
def normalize_coord (coord max_val : ℤ) : ℤ :=
  truncQ (rnd (rnd (rnd (coord : ℚ) / 1000) * rnd (max_val : ℚ)))

/-! ## Pixel buffers and raster primitives (`drawing.py`)

A `PixelBuffer` is the flat RGBA byte string: `List ℕ` of length
`width*height*4`.  A write is Python's slice assignment
`data[idx:idx+4] = bytes([r,g,b,a])`, guarded by the bounds check
`0 <= px < width and 0 <= py < height`.
-/

/-- An RGBA colour. -/
abbrev Color : Type := ℕ × ℕ × ℕ × ℕ

/-- Flat RGBA byte string. -/
abbrev ByteBuf : Type := List ℕ

def RED : Color := (255, 0, 0, 255)

def GREEN : Color := (0, 255, 0, 255)

def BLUE : Color := (0, 150, 255, 255)

def YELLOW : Color := (255, 255, 0, 255)

def WHITE : Color := (255, 255, 255, 255)

def BLACK : Color := (0, 0, 0, 255)

/-- Python `range(lo, hi)` over integers. -/
def intRange (lo hi : ℤ) : List ℤ :=
  (List.range (hi - lo).toNat).map (fun k => lo + (k : ℤ))

/-- Python slice assignment `data[idx:idx+4] = bs` (with `|bs| = 4`). -/
def writeSlice (data : List ℕ) (idx : ℕ) (bs : List ℕ) : List ℕ :=
  data.take idx ++ bs ++ data.drop (idx + 4)

/-- Guarded pixel write: `if 0 <= px < width and 0 <= py < height:
data[(py*width+px)*4 : ...] = color`. -/
def stampPix (w h : ℤ) (c : Color) (data : ByteBuf) (px py : ℤ) : ByteBuf :=
  if 0 ≤ px ∧ px < w ∧ 0 ≤ py ∧ py < h then
    writeSlice data ((py * w + px) * 4).toNat [c.1, c.2.1, c.2.2.1, c.2.2.2]
  else data

/-- The thickness offset range `range(-thickness // 2, thickness // 2 + 1)`
(Python `//` is floor division). -/
def thickRange (t : ℤ) : List ℤ :=
  intRange ((-t).fdiv 2) (t.fdiv 2 + 1)

/-- `draw_crosshair` from `drawing.py`: thick horizontal arm, thick vertical
arm, and a filled centre disk of radius 3. -/
def draw_crosshair (rgba : ByteBuf) (w h x y size : ℤ) (c : Color) (t : ℤ) : ByteBuf :=
  let d1 := (intRange (-size) (size + 1)).foldl
    (fun acc dx => (thickRange t).foldl
      (fun acc2 dy => stampPix w h c acc2 (x + dx) (y + dy)) acc) rgba
  let d2 := (intRange (-size) (size + 1)).foldl
    (fun acc dy => (thickRange t).foldl
      (fun acc2 dx => stampPix w h c acc2 (x + dx) (y + dy)) acc) d1
  (intRange (-3) 4).foldl
    (fun acc cy => (intRange (-3) 4).foldl
      (fun acc2 cx =>
        if cx * cx + cy * cy ≤ 3 * 3 then stampPix w h c acc2 (x + cx) (y + cy)
        else acc2) acc) d2

/-- `draw_circle` from `drawing.py`: scan the bounding square; filled mode
stamps `dist² ≤ r²`, hollow mode stamps the ring `(r-2)² ≤ dist² ≤ r²`. -/
def draw_circle (rgba : ByteBuf) (w h x y radius : ℤ) (c : Color) (filled : Bool) : ByteBuf :=
  (intRange (-radius) (radius + 1)).foldl
    (fun acc cy => (intRange (-radius) (radius + 1)).foldl
      (fun acc2 cx =>
        let dist_sq := cx * cx + cy * cy
        if filled then
          if dist_sq ≤ radius * radius then stampPix w h c acc2 (x + cx) (y + cy)
          else acc2
        else
          if (radius - 2) * (radius - 2) ≤ dist_sq ∧ dist_sq ≤ radius * radius then
            stampPix w h c acc2 (x + cx) (y + cy)
          else acc2) acc) rgba

/-- The `thickness×thickness` square stamped at each Bresenham step of
`draw_line`. -/
def stampThick (w h : ℤ) (c : Color) (t : ℤ) (data : ByteBuf) (x y : ℤ) : ByteBuf :=
  (thickRange t).foldl
    (fun acc ty => (thickRange t).foldl
      (fun acc2 tx => stampPix w h c acc2 (x + tx) (y + ty)) acc) data

/-- The `while True` loop of `draw_line`, made total by a fuel parameter
(`none` = fuel exhausted before the loop broke).  The loop additionally
returns the ghost trace of the centres it stamped, in order; the trace does
not influence control flow or the pixel data. -/
def lineLoop (w h : ℤ) (c : Color) (t x2 y2 sx sy dx dy : ℤ) :
    ℕ → ℤ → ℤ → ℤ → ByteBuf → List (ℤ × ℤ) → Option (ByteBuf × List (ℤ × ℤ))
  | 0, _, _, _, _, _ => none
  | fuel + 1, x, y, err, data, trace =>
    let data1 := stampThick w h c t data x y
    let trace1 := trace ++ [(x, y)]
    if x = x2 ∧ y = y2 then some (data1, trace1)
    else
      let e2 := 2 * err
      let err1 := if -dy < e2 then err - dy else err
      let x1 := if -dy < e2 then x + sx else x
      let err2 := if e2 < dx then err1 + dx else err1
      let y1 := if e2 < dx then y + sy else y
      lineLoop w h c t x2 y2 sx sy dx dy fuel x1 y1 err2 data1 trace1

/-- Fuel that (provably) suffices for the Bresenham loop. -/
def lineFuel (dx dy : ℤ) : ℕ := (dx + dy).toNat + 1

/-- `draw_line` from `drawing.py`: integer Bresenham stepping from `(x1,y1)`
to `(x2,y2)`, stamping a thick square at every step. -/
def draw_line (rgba : ByteBuf) (w h x1 y1 x2 y2 : ℤ) (c : Color) (t : ℤ) : ByteBuf :=
  let dx := |x2 - x1|
  let dy := |y2 - y1|
  let sx : ℤ := if x1 < x2 then 1 else -1
  let sy : ℤ := if y1 < y2 then 1 else -1
  match lineLoop w h c t x2 y2 sx sy dx dy (lineFuel dx dy) x1 y1 (dx - dy) rgba [] with
  | some r => r.1
  | none => rgba

/-- `draw_arrow` from `drawing.py`, with the two floating-point arrow-head
endpoints `(lx,ly)` and `(rx,ry)` taken as parameters (the trigonometric
`atan2`/`cos`/`sin` computation producing them is abstracted; every claim
about the arrow is proved for all endpoint choices). -/
def draw_arrowWith (rgba : ByteBuf) (w h x1 y1 x2 y2 lx ly rx ry : ℤ)
    (c : Color) (t : ℤ) : ByteBuf :=
  let d1 := draw_line rgba w h x1 y1 x2 y2 c t
  let d2 := draw_line d1 w h x2 y2 lx ly c t
  draw_line d2 w h x2 y2 rx ry c t

/-- `draw_rectangle` from `drawing.py`: four border lines (top, right,
bottom, left). -/
def draw_rectangle (rgba : ByteBuf) (w h x1 y1 x2 y2 : ℤ) (c : Color) (t : ℤ) : ByteBuf :=
  let d1 := draw_line rgba w h x1 y1 x2 y1 c t
  let d2 := draw_line d1 w h x2 y1 x2 y2 c t
  let d3 := draw_line d2 w h x2 y2 x1 y2 c t
  draw_line d3 w h x1 y2 x1 y1 c t

/-! ## Digit glyphs (`_DIGITS` and `_draw_action_number` from `main.py`) -/

/-- The 5×7 bitmap font `_DIGITS`. -/
def digitGlyph : ℕ → Option (List (List Char))
  | 0 => some [(" ### ").toList, ("#   #").toList, ("#   #").toList, ("#   #").toList,
      ("#   #").toList, ("#   #").toList, (" ### ").toList]
  | 1 => some [("  #  ").toList, (" ##  ").toList, ("  #  ").toList, ("  #  ").toList,
      ("  #  ").toList, ("  #  ").toList, (" ### ").toList]
  | 2 => some [(" ### ").toList, ("#   #").toList, ("    #").toList, ("  ## ").toList,
      (" #   ").toList, ("#    ").toList, ("#####").toList]
  | 3 => some [(" ### ").toList, ("#   #").toList, ("    #").toList, ("  ## ").toList,
      ("    #").toList, ("#   #").toList, (" ### ").toList]
  | 4 => some [("   # ").toList, ("  ## ").toList, (" # # ").toList, ("#  # ").toList,
      ("#####").toList, ("   # ").toList, ("   # ").toList]
  | 5 => some [("#####").toList, ("#    ").toList, ("#### ").toList, ("    #").toList,
      ("    #").toList, ("#   #").toList, (" ### ").toList]
  | 6 => some [(" ### ").toList, ("#    ").toList, ("#    ").toList, ("#### ").toList,
      ("#   #").toList, ("#   #").toList, (" ### ").toList]
  | 7 => some [("#####").toList, ("    #").toList, ("   # ").toList, ("  #  ").toList,
      ("  #  ").toList, ("  #  ").toList, ("  #  ").toList]
  | 8 => some [(" ### ").toList, ("#   #").toList, ("#   #").toList, (" ### ").toList,
      ("#   #").toList, ("#   #").toList, (" ### ").toList]
  | 9 => some [(" ### ").toList, ("#   #").toList, ("#   #").toList, (" ####").toList,
      ("    #").toList, ("    #").toList, (" ### ").toList]
  | _ => none

/-- Stamp one glyph cell scaled 2×2. -/
def stampCell (w h : ℤ) (c : Color) (data : ByteBuf) (px py : ℤ) : ByteBuf :=
  (List.range 2).foldl
    (fun acc (sy : ℕ) => (List.range 2).foldl
      (fun acc2 (sx : ℕ) => stampPix w h c acc2 (px + (sx : ℤ)) (py + (sy : ℤ))) acc) data

/-- One character of `_draw_action_number`'s loop: an unknown glyph is
skipped (Python's `continue`, which also skips the 12-column advance). -/
def digitStep (w h : ℤ) (c : Color) (x y : ℤ) (st : ByteBuf × ℤ) (ch : Char) :
    ByteBuf × ℤ :=
  match digitGlyph (digVal ch) with
  | none => st
  | some glyph =>
    let d2 := glyph.enum.foldl
      (fun acc row => row.2.enum.foldl
        (fun acc2 cell =>
          if cell.2 = '#' then
            stampCell w h c acc2 (x + st.2 + (cell.1 : ℤ) * 2) (y + (row.1 : ℤ) * 2)
          else acc2) acc) st.1
    (d2, st.2 + 12)

/-- `_draw_action_number` from `main.py`: render the decimal digits of
`number` as 2×-scaled 5×7 glyphs, advancing 12 pixel columns per digit. -/
def draw_action_number (rgba : ByteBuf) (w h x y : ℤ) (number : ℕ) (c : Color) : ByteBuf :=
  ((natToChars number).foldl (digitStep w h c x y) (rgba, 0)).1

/-! ## The Annotation Composer (`create_visualization` from `main.py`) -/

/-- The four cycling `(primary, secondary)` pairs. -/
def colorPairs : List (Color × Color) := [(RED, GREEN), (BLUE, YELLOW), (GREEN, RED), (YELLOW, BLUE)]

def ENABLE_VISUAL_FEEDBACK : Bool := true

/-- `len(params)` for a parsed payload. -/
def paramsLen : ActArgs → ℕ
  | .coords ns => ns.length
  | .text _ => 1

/-- `params[i]` for a coordinate payload. -/
def coordGet (a : ActArgs) (i : ℕ) : ℤ :=
  match a with
  | .coords ns => ns.getD i 0
  | .text _ => 0

/-- One iteration of `draw_annotations`'s loop over `last_actions`.
State is `(action_index, rgba)`; `n` is `len(last_actions)`. -/
def annotStep (arrowEnds : ℤ → ℤ → ℤ → ℤ → (ℤ × ℤ) × (ℤ × ℤ)) (w h : ℤ) (n : ℕ)
    (st : ℕ × ByteBuf) (action : List Char) : ℕ × ByteBuf :=
  if action = ("init").toList then st
  else
    match funcSearch action with
    | none => st
    | some fg =>
      match parse_args fg.1 (strip fg.2) with
      | none => st
      | some params =>
        let ai := st.1 + 1
        let pr := colorPairs.getD ((ai - 1) % colorPairs.length) (RED, GREEN)
        if (fg.1 = .left_click ∨ fg.1 = .double_left_click) ∧ paramsLen params = 2 then
          let x := normalize_coord (coordGet params 0) w
          let y := normalize_coord (coordGet params 1) h
          let d1 := draw_crosshair st.2 w h x y 25 pr.1 3
          let d2 := draw_circle d1 w h x y 40 pr.2 false
          let d3 := if 1 < ai ∨ 1 < n then draw_action_number d2 w h (x + 30) (y - 30) ai pr.1
            else d2
          (ai, d3)
        else if fg.1 = .right_click ∧ paramsLen params = 2 then
          let x := normalize_coord (coordGet params 0) w
          let y := normalize_coord (coordGet params 1) h
          let d1 := draw_crosshair st.2 w h x y 25 BLUE 3
          let d2 := draw_circle d1 w h x y 40 YELLOW false
          let d3 := if 1 < ai ∨ 1 < n then draw_action_number d2 w h (x + 30) (y - 30) ai BLUE
            else d2
          (ai, d3)
        else if fg.1 = .drag ∧ paramsLen params = 4 then
          let x1 := normalize_coord (coordGet params 0) w
          let y1 := normalize_coord (coordGet params 1) h
          let x2 := normalize_coord (coordGet params 2) w
          let y2 := normalize_coord (coordGet params 3) h
          let ends := arrowEnds x1 y1 x2 y2
          let d1 := draw_arrowWith st.2 w h x1 y1 x2 y2 ends.1.1 ends.1.2 ends.2.1 ends.2.2 pr.1 4
          let d2 := draw_circle d1 w h x1 y1 15 pr.2 true
          let d3 := draw_circle d2 w h x2 y2 15 pr.1 true
          let d4 := if 1 < ai ∨ 1 < n then draw_action_number d3 w h (x1 + 20) (y1 - 20) ai pr.1
            else d3
          (ai, d4)
        else (ai, st.2)

/-- The drawing callback produced by `create_visualization(last_actions)`.
`arrowEnds` abstracts the floating-point arrow-head endpoint computation of
`draw_arrow` (only reached for `drag` actions). -/
def draw_annotations (arrowEnds : ℤ → ℤ → ℤ → ℤ → (ℤ × ℤ) × (ℤ × ℤ))
    (last_actions : List (List Char)) (rgba : ByteBuf) (w h : ℤ) : ByteBuf :=
  if ENABLE_VISUAL_FEEDBACK = false then rgba
  else (last_actions.foldl (annotStep arrowEnds w h last_actions.length) (0, rgba)).2

/-! ## Narrative extraction (`parse_response` from `main.py`) and the
story update of the main loop -/

/-- Python `str.splitlines` for `\n`-separated text (a trailing newline does
not produce a trailing empty line). -/
def splitLinesGo (cur : List Char) : List Char → List (List Char)
  | [] => [cur]
  | c :: rest =>
    if c = '\n' then (if rest = [] then [cur] else cur :: splitLinesGo [] rest)
    else splitLinesGo (cur ++ [c]) rest

/-- Python `content.splitlines()`. -/
def splitLines (s : List Char) : List (List Char) :=
  if s = [] then [] else splitLinesGo [] s

/-- The code-fence delimiter prefix. -/
def fenceChars : List Char := ("```").toList

/-- The story-collection loop of `parse_response`: keep each stripped line
unless it is empty, contains a `_FUNC_RE` match, or starts a code fence. -/
def story_lines : List (List Char) → List (List Char)
  | [] => []
  | line :: rest =>
    let s := strip line
    if s = [] then story_lines rest
    else if (funcSearch s).isSome then story_lines rest
    else if startsWithC s fenceChars then story_lines rest
    else s :: story_lines rest

/-- Python `" ".join`. -/
def joinSpace : List (List Char) → List Char
  | [] => []
  | [x] => x
  | x :: xs => x ++ ' ' :: joinSpace xs

/-- The narrative component of `parse_response(content)`:
`" ".join(story_lines).strip()`. -/
def parse_story (content : List Char) : List Char :=
  strip (joinSpace (story_lines (splitLines content)))

/-- The per-cycle story update of `main()`: `if new_story: story = new_story`
(an empty parse keeps the previous story). -/
def update_story (story content : List Char) : List Char :=
  let new_story := parse_story content
  if new_story ≠ [] then new_story else story

/-- Spec-side account of the narrative (claim C4): the non-blank lines that
contain no recognized action call and are not code-fence delimiters, each
stripped, joined with single spaces in original order. -/
def story_spec (content : List Char) : List Char :=
  joinSpace (((splitLines content).map strip).filter
    (fun s => !s.isEmpty && (funcSearch s).isNone && !startsWithC s fenceChars))

/-! # Lemmas and claim theorems -/

/-! ## Generic list helpers -/

theorem foldl_fix {α β : Type} (f : α → β → α) (a : α) :
    ∀ l : List β, (∀ b ∈ l, f a b = a) → List.foldl f a l = a := by
  intro l
  induction l with
  | nil => intro _; rfl
  | cons b bs ih =>
    intro hb
    have h1 : f a b = a := hb b (by simp)
    simp only [List.foldl_cons, h1]
    exact ih fun x hx => hb x (by simp [hx])

theorem foldl_preserve {α β : Type} (P : α → Prop) (f : α → β → α)
    (hf : ∀ a b, P a → P (f a b)) :
    ∀ (l : List β) (a : α), P a → P (List.foldl f a l) := by
  intro l
  induction l with
  | nil => intro a ha; exact ha
  | cons b bs ih => intro a ha; exact ih (f a b) (hf a b ha)

theorem isPrefixOf_append_self (kw rest : List Char) :
    kw.isPrefixOf (kw ++ rest) = true := by
  induction kw with
  | nil => simp [List.isPrefixOf]
  | cons c cs ih => simp [List.isPrefixOf, ih]

theorem takeWhile_append_stop (p : Char → Bool) (body : List Char) (c : Char)
    (rest : List Char) (hb : ∀ x ∈ body, p x = true) (hc : p c = false) :
    (body ++ c :: rest).takeWhile p = body := by
  induction body with
  | nil => simp [List.takeWhile, hc]
  | cons b bs ih =>
    have hbb : p b = true := hb b (by simp)
    simp only [List.cons_append, List.takeWhile_cons, hbb, if_true]
    rw [ih fun x hx => hb x (by simp [hx])]

theorem dropWhile_append_stop (p : Char → Bool) (body : List Char) (c : Char)
    (rest : List Char) (hb : ∀ x ∈ body, p x = true) (hc : p c = false) :
    (body ++ c :: rest).dropWhile p = c :: rest := by
  induction body with
  | nil => simp [List.dropWhile, hc]
  | cons b bs ih =>
    have hbb : p b = true := hb b (by simp)
    simp only [List.cons_append, List.dropWhile_cons, hbb, if_true]
    exact ih fun x hx => hb x (by simp [hx])

/-! ## `strip` facts -/

theorem mem_rstrip {l : List Char} {c : Char} (h : c ∈ rstrip l) : c ∈ l := by
  unfold rstrip at h
  rw [List.mem_reverse] at h
  have := (List.dropWhile_sublist (l := l.reverse) (p := isSpaceC)).subset h
  rwa [List.mem_reverse] at this

theorem mem_strip {l : List Char} {c : Char} (h : c ∈ strip l) : c ∈ l := by
  unfold strip at h
  exact (List.dropWhile_sublist (l := l) (p := isSpaceC)).subset (mem_rstrip h)

theorem dropWhile_eq_self_of_head (p : Char → Bool) :
    ∀ l : List Char, (∀ c, l.head? = some c → p c = false) → l.dropWhile p = l := by
  intro l h
  cases l with
  | nil => rfl
  | cons c cs => simp [List.dropWhile_cons, h c rfl]

theorem rstrip_eq_self_of_last (l : List Char)
    (h : ∀ c, l.getLast? = some c → isSpaceC c = false) : rstrip l = l := by
  unfold rstrip
  rw [dropWhile_eq_self_of_head isSpaceC l.reverse
    (fun c hc => h c (by rwa [List.head?_reverse] at hc))]
  exact List.reverse_reverse l

theorem strip_eq_self_of_ends (l : List Char)
    (h1 : ∀ c, l.head? = some c → isSpaceC c = false)
    (h2 : ∀ c, l.getLast? = some c → isSpaceC c = false) : strip l = l := by
  unfold strip
  rw [dropWhile_eq_self_of_head isSpaceC l h1]
  exact rstrip_eq_self_of_last l h2

theorem strip_eq_self_of_all (l : List Char)
    (h : ∀ c ∈ l, isSpaceC c = false) : strip l = l := by
  refine strip_eq_self_of_ends l (fun c hc => ?_) (fun c hc => ?_)
  · exact h c (by cases l with | nil => simp at hc | cons a as => simp_all)
  · refine h c ?_
    have h2 := List.dropLast_append_getLast? c hc
    rw [← h2]
    simp

theorem head_dropWhile_false (p : Char → Bool) :
    ∀ (l : List Char) (c : Char), (l.dropWhile p).head? = some c → p c = false := by
  intro l
  induction l with
  | nil => intro c hc; simp [List.dropWhile] at hc
  | cons a as ih =>
    intro c hc
    by_cases hpa : p a
    · rw [List.dropWhile_cons_of_pos hpa] at hc
      exact ih c hc
    · rw [List.dropWhile_cons_of_neg hpa] at hc
      simp at hc
      subst hc
      simpa using hpa

theorem rstrip_prefix (m : List Char) : rstrip m <+: m := by
  unfold rstrip
  rcases List.dropWhile_suffix (l := m.reverse) (p := isSpaceC) with ⟨t, ht⟩
  exact ⟨t.reverse, by rw [← List.reverse_append, ht, List.reverse_reverse]⟩

theorem strip_head_not_space (l : List Char) (c : Char)
    (h : (strip l).head? = some c) : isSpaceC c = false := by
  unfold strip at h
  rcases rstrip_prefix (l.dropWhile isSpaceC) with ⟨t, ht⟩
  refine head_dropWhile_false isSpaceC l c ?_
  rw [← ht]
  rcases hr : rstrip (l.dropWhile isSpaceC) with _ | ⟨a, as⟩
  · rw [hr] at h; simp at h
  · rw [hr] at h
    simp at h
    subst h
    simp

theorem strip_last_not_space (l : List Char) (c : Char)
    (h : (strip l).getLast? = some c) : isSpaceC c = false := by
  unfold strip rstrip at h
  rw [List.getLast?_reverse] at h
  exact head_dropWhile_false isSpaceC _ c h

/-! ## Decimal rendering round-trip -/

/-- The digit-accumulation step of the `-?\d+` scanner. -/
def accStep (a : ℕ) (c : Char) : ℕ := a * 10 + digVal c

theorem digVal_dChar {r : ℕ} (h : r < 10) : digVal (dChar r) = r := by
  interval_cases r <;> decide

theorem isDigitC_dChar {r : ℕ} (h : r < 10) : isDigitC (dChar r) = true := by
  interval_cases r <;> decide

theorem natToCharsGo_digits (fuel : ℕ) :
    ∀ n, ∀ c ∈ natToCharsGo fuel n, isDigitC c = true := by
  induction fuel with
  | zero => intro n c hc; simp [natToCharsGo] at hc
  | succ f ih =>
    intro n c hc
    by_cases hn : n = 0
    · simp [natToCharsGo, hn] at hc
    · rw [natToCharsGo, if_neg hn] at hc
      rcases List.mem_append.1 hc with h1 | h2
      · exact ih (n / 10) c h1
      · have : c = dChar (n % 10) := by simpa using h2
        rw [this]
        exact isDigitC_dChar (Nat.mod_lt n (by norm_num))

theorem natToCharsGo_val (fuel : ℕ) :
    ∀ n a, n ≤ fuel →
      List.foldl accStep a (natToCharsGo fuel n) = a * 10 ^ (natToCharsGo fuel n).length + n := by
  induction fuel with
  | zero =>
    intro n a hn
    interval_cases n
    simp [natToCharsGo]
  | succ f ih =>
    intro n a hn
    by_cases h0 : n = 0
    · simp [natToCharsGo, h0]
    · rw [natToCharsGo, if_neg h0]
      rw [List.foldl_append]
      have hdiv : n / 10 ≤ f := by omega
      rw [ih (n / 10) a hdiv]
      simp only [List.foldl_cons, List.foldl_nil, accStep]
      rw [digVal_dChar (Nat.mod_lt n (by norm_num))]
      rw [List.length_append]
      simp [pow_succ]
      ring_nf
      omega

theorem natToChars_digits (n : ℕ) : ∀ c ∈ natToChars n, isDigitC c = true := by
  intro c hc
  unfold natToChars at hc
  by_cases h0 : n = 0
  · rw [if_pos h0] at hc
    have : c = dChar 0 := by simpa using hc
    rw [this]; decide
  · rw [if_neg h0] at hc
    exact natToCharsGo_digits n n c hc

theorem natToChars_val (n : ℕ) : List.foldl accStep 0 (natToChars n) = n := by
  unfold natToChars
  by_cases h0 : n = 0
  · simp [h0, accStep]
    decide
  · rw [if_neg h0]
    rw [natToCharsGo_val n n 0 le_rfl]
    simp

theorem natToChars_ne_nil (n : ℕ) : natToChars n ≠ [] := by
  unfold natToChars
  by_cases h0 : n = 0
  · simp [h0]
  · rw [if_neg h0]
    cases n with
    | zero => exact absurd rfl h0
    | succ m =>
      rw [natToCharsGo, if_neg h0]
      simp

/-! ## Scanner lemmas: reading back a printed integer -/


theorem findIntsGo_num_nil (neg : Bool) (a : ℕ) :
    findIntsGo (.num neg a) [] = [mkTok neg a] := rfl

theorem findIntsGo_num_comma (neg : Bool) (a : ℕ) (rest : List Char) :
    findIntsGo (.num neg a) (',' :: rest) = mkTok neg a :: findIntsGo .plain rest := by
  have h1 : isDigitC ',' = false := by decide
  have h2 : ¬(',' = '-') := by decide
  simp [findIntsGo, h1, h2]

theorem findIntsGo_digits_run (neg : Bool) :
    ∀ (ds : List Char) (a : ℕ) (rest : List Char),
      (∀ c ∈ ds, isDigitC c = true) →
      findIntsGo (.num neg a) (ds ++ rest) = findIntsGo (.num neg (List.foldl accStep a ds)) rest := by
  intro ds
  induction ds with
  | nil => intro a rest _; rfl
  | cons d ds' ih =>
    intro a rest hd
    have hdig : isDigitC d = true := hd d (by simp)
    simp only [List.cons_append, findIntsGo, hdig, if_true, List.append_eq]
    rw [ih (a * 10 + digVal d) rest fun x hx => hd x (by simp [hx])]
    rfl

theorem findIntsGo_plain_digits (d : Char) (ds rest : List Char)
    (hd : isDigitC d = true) (hds : ∀ c ∈ ds, isDigitC c = true) :
    findIntsGo .plain (d :: ds ++ rest) =
      findIntsGo (.num false (List.foldl accStep 0 (d :: ds))) rest := by
  simp only [List.cons_append, findIntsGo, hd, if_true, List.append_eq]
  rw [findIntsGo_digits_run false ds (digVal d) rest hds]
  simp [accStep]

theorem findIntsGo_minus_digits (d : Char) (ds rest : List Char)
    (hd : isDigitC d = true) (hds : ∀ c ∈ ds, isDigitC c = true) :
    findIntsGo .minus (d :: ds ++ rest) =
      findIntsGo (.num true (List.foldl accStep 0 (d :: ds))) rest := by
  simp only [List.cons_append, findIntsGo, hd, if_true, List.append_eq]
  rw [findIntsGo_digits_run true ds (digVal d) rest hds]
  simp [accStep]

theorem intToChars_no_rparen (i : ℤ) : ∀ c ∈ intToChars i, ¬c = ')' := by
  intro c hc
  unfold intToChars at hc
  by_cases hi : i < 0
  · rw [if_pos hi] at hc
    rcases List.mem_cons.1 hc with rfl | hc
    · decide
    · intro he
      have := natToChars_digits i.natAbs c hc
      rw [he] at this
      simp [isDigitC] at this
  · rw [if_neg hi] at hc
    intro he
    have := natToChars_digits i.toNat c hc
    rw [he] at this
    simp [isDigitC] at this

theorem intToChars_no_space (i : ℤ) : ∀ c ∈ intToChars i, isSpaceC c = false := by
  intro c hc
  unfold intToChars at hc
  by_cases hi : i < 0
  · rw [if_pos hi] at hc
    rcases List.mem_cons.1 hc with rfl | hc
    · decide
    · have := natToChars_digits i.natAbs c hc
      simp [isDigitC] at this
      simp [isSpaceC]
      omega
  · rw [if_neg hi] at hc
    have := natToChars_digits i.toNat c hc
    simp [isDigitC] at this
    simp [isSpaceC]
    omega

theorem mkTok_neg_natAbs {i : ℤ} (hi : i < 0) : mkTok true i.natAbs = i := by
  simp only [mkTok, if_true]
  omega

theorem mkTok_pos_toNat {i : ℤ} (hi : ¬i < 0) : mkTok false i.toNat = i := by
  simp only [mkTok, if_false]
  exact Int.toNat_of_nonneg (by omega)

/-- Scanning a printed integer directly followed by a comma: one token with
the original value, then the scan of the remainder. -/
theorem findIntsGo_intToChars_comma (i : ℤ) (rest : List Char) :
    findIntsGo .plain (intToChars i ++ ',' :: rest) = i :: findIntsGo .plain rest := by
  unfold intToChars
  by_cases hi : i < 0
  · rw [if_pos hi]
    rcases hnn : natToChars i.natAbs with _ | ⟨d, ds⟩
    · exact absurd hnn (natToChars_ne_nil _)
    · have hd : isDigitC d = true := natToChars_digits i.natAbs d (by rw [hnn]; simp)
      have hds : ∀ c ∈ ds, isDigitC c = true := fun c hc =>
        natToChars_digits i.natAbs c (by rw [hnn]; simp [hc])
      have hstep : findIntsGo .plain (('-' :: (d :: ds)) ++ ',' :: rest) =
          findIntsGo .minus ((d :: ds) ++ ',' :: rest) := by
        simp [findIntsGo, show isDigitC '-' = false from by decide]
      rw [List.cons_append, ← List.cons_append, hstep,
        findIntsGo_minus_digits d ds (',' :: rest) hd hds]
      have hval : List.foldl accStep 0 (d :: ds) = i.natAbs := by
        rw [← hnn]; exact natToChars_val _
      rw [hval, findIntsGo_num_comma, mkTok_neg_natAbs hi]
  · rw [if_neg hi]
    rcases hnn : natToChars i.toNat with _ | ⟨d, ds⟩
    · exact absurd hnn (natToChars_ne_nil _)
    · have hd : isDigitC d = true := natToChars_digits i.toNat d (by rw [hnn]; simp)
      have hds : ∀ c ∈ ds, isDigitC c = true := fun c hc =>
        natToChars_digits i.toNat c (by rw [hnn]; simp [hc])
      rw [findIntsGo_plain_digits d ds (',' :: rest) hd hds]
      have hval : List.foldl accStep 0 (d :: ds) = i.toNat := by
        rw [← hnn]; exact natToChars_val _
      rw [hval, findIntsGo_num_comma, mkTok_pos_toNat hi]

/-- Scanning a printed integer at the end of the string. -/
theorem findIntsGo_intToChars_end (i : ℤ) :
    findIntsGo .plain (intToChars i) = [i] := by
  unfold intToChars
  by_cases hi : i < 0
  · rw [if_pos hi]
    rcases hnn : natToChars i.natAbs with _ | ⟨d, ds⟩
    · exact absurd hnn (natToChars_ne_nil _)
    · have hd : isDigitC d = true := natToChars_digits i.natAbs d (by rw [hnn]; simp)
      have hds : ∀ c ∈ ds, isDigitC c = true := fun c hc =>
        natToChars_digits i.natAbs c (by rw [hnn]; simp [hc])
      have hstep : findIntsGo .plain ('-' :: (d :: ds)) =
          findIntsGo .minus (d :: ds) := by
        simp [findIntsGo, show isDigitC '-' = false from by decide]
      rw [hstep, show (d :: ds) = (d :: ds) ++ ([] : List Char) by simp,
        findIntsGo_minus_digits d ds [] hd hds]
      have hval : List.foldl accStep 0 (d :: ds) = i.natAbs := by
        rw [← hnn]; exact natToChars_val _
      rw [hval, findIntsGo_num_nil, mkTok_neg_natAbs hi]
  · rw [if_neg hi]
    rcases hnn : natToChars i.toNat with _ | ⟨d, ds⟩
    · exact absurd hnn (natToChars_ne_nil _)
    · have hd : isDigitC d = true := natToChars_digits i.toNat d (by rw [hnn]; simp)
      have hds : ∀ c ∈ ds, isDigitC c = true := fun c hc =>
        natToChars_digits i.toNat c (by rw [hnn]; simp [hc])
      rw [show (d :: ds) = (d :: ds) ++ ([] : List Char) by simp,
        findIntsGo_plain_digits d ds [] hd hds]
      have hval : List.foldl accStep 0 (d :: ds) = i.toNat := by
        rw [← hnn]; exact natToChars_val _
      rw [hval, findIntsGo_num_nil, mkTok_pos_toNat hi]

/-! ## Matcher lemmas: `_FUNC_RE.search` on a rendered call -/

theorem tryKw_success (f : FuncName) (body : List Char) (hb : ∀ c ∈ body, ¬c = ')') :
    tryKw f (kwChars f ++ '(' :: (body ++ [')'])) = some (f, body) := by
  have hpre := isPrefixOf_append_self (kwChars f) ('(' :: (body ++ [')']))
  have hdrop : (kwChars f ++ '(' :: (body ++ [')'])).drop (kwChars f).length =
      '(' :: (body ++ [')']) := List.drop_left _ _
  have hnospace : isSpaceC '(' = false := by decide
  have hp : ∀ x ∈ body, (fun d => !(d = ')')) x = true := by
    intro x hx
    simp [hb x hx]
  have hstop : (fun d => !(d = ')')) ')' = false := by decide
  have htake : (body ++ ')' :: []).takeWhile (fun d => !(d = ')')) = body :=
    takeWhile_append_stop _ body ')' [] hp hstop
  have hdropw : (body ++ ')' :: []).dropWhile (fun d => !(d = ')')) = ')' :: [] :=
    dropWhile_append_stop _ body ')' [] hp hstop
  unfold tryKw
  rw [if_pos hpre, hdrop, List.dropWhile_cons_of_neg (by simp [hnospace])]
  simp [htake, hdropw]

theorem tryMatchAt_format (f : FuncName) (body : List Char) (hb : ∀ c ∈ body, ¬c = ')') :
    tryMatchAt (kwChars f ++ '(' :: (body ++ [')'])) = some (f, body) := by
  cases f with
  | left_click =>
    unfold tryMatchAt
    rw [tryKw_success .left_click body hb]
    rfl
  | right_click =>
    unfold tryMatchAt
    rw [tryKw_success .right_click body hb]
    rfl
  | double_left_click =>
    unfold tryMatchAt
    rw [tryKw_success .double_left_click body hb]
    rfl
  | drag =>
    unfold tryMatchAt
    rw [tryKw_success .drag body hb]
    rfl
  | type =>
    unfold tryMatchAt
    rw [tryKw_success .type body hb]
    rfl

theorem funcSearchGo_head_match (prev : Option Char) (s : List Char)
    (r : FuncName × List Char) (hne : s ≠ []) (hprev : boundaryOK prev = true)
    (h : tryMatchAt s = some r) : funcSearchGo prev s = some r := by
  cases s with
  | nil => exact absurd rfl hne
  | cons c cs => simp only [funcSearchGo, hprev, if_true, h]

theorem kwChars_ne_nil (f : FuncName) : kwChars f ≠ [] := by
  cases f <;> simp [kwChars]

theorem funcSearch_format (f : FuncName) (body : List Char) (hb : ∀ c ∈ body, ¬c = ')') :
    funcSearch (kwChars f ++ '(' :: (body ++ [')'])) = some (f, body) := by
  refine funcSearchGo_head_match none _ _ ?_ rfl (tryMatchAt_format f body hb)
  simp [kwChars_ne_nil f]

/-! ## `strip`/`stripQuotes` helpers and the C1 round-trip -/

theorem strip_idem (l : List Char) : strip (strip l) = strip l :=
  strip_eq_self_of_ends (strip l) (strip_head_not_space l) (strip_last_not_space l)

theorem mem_stripQuotes {t : List Char} {c : Char} (h : c ∈ stripQuotes t) : c ∈ t := by
  unfold stripQuotes at h
  split at h
  · have h1 := (List.dropLast_sublist (t.drop 1)).subset h
    exact (List.drop_sublist 1 t).subset h1
  · exact h

theorem getLast_wrap (q : Char) (t : List Char) :
    (q :: (t ++ [q])).getLast? = some q := by
  rw [show q :: (t ++ [q]) = (q :: t) ++ [q] by simp]
  exact List.getLast?_concat _

theorem strip_wrap (q : Char) (t : List Char) (hq : isSpaceC q = false) :
    strip (q :: (t ++ [q])) = q :: (t ++ [q]) := by
  refine strip_eq_self_of_ends _ (fun c hc => ?_) (fun c hc => ?_)
  · simp at hc
    subst hc
    exact hq
  · rw [getLast_wrap] at hc
    have hcq : q = c := by simpa using hc
    subst hcq
    exact hq

theorem stripQuotes_wrap (t : List Char) :
    stripQuotes (dquote :: (t ++ [dquote])) = t := by
  unfold stripQuotes
  rw [if_pos (Or.inl ⟨rfl, getLast_wrap dquote t⟩)]
  simp

theorem joinComma_no_rparen (ns : List ℤ) :
    ∀ c ∈ joinComma (ns.map intToChars), ¬c = ')' := by
  induction ns with
  | nil => intro c hc; simp [joinComma] at hc
  | cons n rest ih =>
    intro c hc
    cases rest with
    | nil =>
      simp only [List.map, joinComma] at hc
      exact intToChars_no_rparen n c hc
    | cons m ms =>
      simp only [List.map, joinComma] at hc
      rcases List.mem_append.1 hc with h1 | h1
      · exact intToChars_no_rparen n c h1
      · rcases List.mem_cons.1 h1 with rfl | h2
        · decide
        · exact ih c (by simpa using h2)

theorem joinComma_no_space (ns : List ℤ) :
    ∀ c ∈ joinComma (ns.map intToChars), isSpaceC c = false := by
  induction ns with
  | nil => intro c hc; simp [joinComma] at hc
  | cons n rest ih =>
    intro c hc
    cases rest with
    | nil =>
      simp only [List.map, joinComma] at hc
      exact intToChars_no_space n c hc
    | cons m ms =>
      simp only [List.map, joinComma] at hc
      rcases List.mem_append.1 hc with h1 | h1
      · exact intToChars_no_space n c h1
      · rcases List.mem_cons.1 h1 with rfl | h2
        · decide
        · exact ih c (by simpa using h2)

theorem findInts_joinComma (ns : List ℤ) (hne : ns ≠ []) :
    findInts (joinComma (ns.map intToChars)) = ns := by
  induction ns with
  | nil => exact absurd rfl hne
  | cons n rest ih =>
    cases rest with
    | nil =>
      simp only [List.map, joinComma]
      exact findIntsGo_intToChars_end n
    | cons m ms =>
      simp only [List.map, joinComma]
      unfold findInts
      rw [findIntsGo_intToChars_comma]
      have := ih (by simp)
      unfold findInts at this
      simp only [List.map] at this
      rw [this]

theorem strip_joinComma (ns : List ℤ) :
    strip (joinComma (ns.map intToChars)) = joinComma (ns.map intToChars) :=
  strip_eq_self_of_all _ (joinComma_no_space ns)

/-- Round trip for the three two-coordinate actions, parameterised by the
defining equation of their shared `_parse_args` branch. -/
theorem coords2_roundtrip (f : FuncName) (raw : List Char) (a : ActArgs)
    (hf : ¬f = FuncName.type)
    (hf2 : ∀ r, parse_args f r =
      (if 2 ≤ (findInts r).length then
        some (.coords [(findInts r).getD 0 0, (findInts r).getD 1 0]) else none))
    (hp : parse_args f raw = some a) :
    ∃ g, funcSearch (format_command f a) = some (f, g) ∧
      parse_args f (strip g) = some a := by
  rw [hf2] at hp
  by_cases h2 : 2 ≤ (findInts raw).length
  · rw [if_pos h2] at hp
    have ha : a = .coords [(findInts raw).getD 0 0, (findInts raw).getD 1 0] :=
      (Option.some.inj hp).symm
    set ns : List ℤ := [(findInts raw).getD 0 0, (findInts raw).getD 1 0] with hns
    refine ⟨joinComma (ns.map intToChars), ?_, ?_⟩
    · have hshape : format_command f (.coords ns) =
          kwChars f ++ '(' :: (joinComma (ns.map intToChars) ++ [')']) := by
        simp [format_command, paramStrs, hf]
      rw [ha, hshape]
      exact funcSearch_format f _ (joinComma_no_rparen ns)
    · rw [strip_joinComma, hf2, findInts_joinComma ns (by simp [hns])]
      rw [ha]
      simp [hns]
  · rw [if_neg h2] at hp
    exact absurd hp (by simp)

/-- Round trip for `drag`. -/
theorem drag_roundtrip (raw : List Char) (a : ActArgs)
    (hp : parse_args .drag raw = some a) :
    ∃ g, funcSearch (format_command .drag a) = some (FuncName.drag, g) ∧
      parse_args .drag (strip g) = some a := by
  simp only [parse_args] at hp
  by_cases h4 : 4 ≤ (findInts raw).length
  · rw [if_pos h4] at hp
    have ha : a = .coords [(findInts raw).getD 0 0, (findInts raw).getD 1 0,
        (findInts raw).getD 2 0, (findInts raw).getD 3 0] :=
      (Option.some.inj hp).symm
    set ns : List ℤ := [(findInts raw).getD 0 0, (findInts raw).getD 1 0,
        (findInts raw).getD 2 0, (findInts raw).getD 3 0] with hns
    refine ⟨joinComma (ns.map intToChars), ?_, ?_⟩
    · have hshape : format_command .drag (.coords ns) =
          kwChars .drag ++ '(' :: (joinComma (ns.map intToChars) ++ [')']) := by
        simp [format_command, paramStrs]
      rw [ha, hshape]
      exact funcSearch_format .drag _ (joinComma_no_rparen ns)
    · rw [strip_joinComma]
      simp only [parse_args]
      rw [findInts_joinComma ns (by simp [hns])]
      rw [ha]
      simp [hns]
  · rw [if_neg h4] at hp
    exact absurd hp (by simp)

/-- C1.  Every `(func_name, params)` pair the parser can produce — any
`raw_args` text free of `)` (as group 2 of `_FUNC_RE` always is) that
`_parse_args` accepts — renders via `format_command` to a literal whose
`_FUNC_RE.search` match re-parses, via `_parse_args` on the stripped
group 2, to exactly the same pair. -/
theorem c1_format_roundtrip (f : FuncName) (raw : List Char) (a : ActArgs)
    (hraw : ∀ c ∈ raw, ¬c = ')')
    (hp : parse_args f raw = some a) :
    ∃ g, funcSearch (format_command f a) = some (f, g) ∧
      parse_args f (strip g) = some a := by
  cases f with
  | type =>
    simp only [parse_args] at hp
    by_cases ht : stripQuotes (strip raw) = []
    · rw [if_pos ht] at hp
      exact absurd hp (by simp)
    · rw [if_neg ht] at hp
      set t := stripQuotes (strip raw) with hdef
      have ha : a = .text t := by
        have := Option.some.inj hp
        exact this.symm
      refine ⟨dquote :: (t ++ [dquote]), ?_, ?_⟩
      · have hshape : format_command .type (.text t) =
            kwChars .type ++ '(' :: ((dquote :: (t ++ [dquote])) ++ [')']) := by
          simp [format_command, paramStrs]
        rw [ha, hshape]
        refine funcSearch_format .type _ ?_
        intro c hc
        rcases List.mem_cons.1 hc with rfl | hc2
        · decide
        · rcases List.mem_append.1 hc2 with hc3 | hc3
          · exact hraw c (mem_strip (mem_stripQuotes (hdef ▸ hc3)))
          · have : c = dquote := by simpa using hc3
            rw [this]; decide
      · rw [strip_wrap dquote t (by decide)]
        simp only [parse_args]
        rw [strip_wrap dquote t (by decide), stripQuotes_wrap, if_neg ht, ha]
  | left_click =>
    exact coords2_roundtrip .left_click raw a (by decide) (fun r => rfl) hp
  | right_click =>
    exact coords2_roundtrip .right_click raw a (by decide) (fun r => rfl) hp
  | double_left_click =>
    exact coords2_roundtrip .double_left_click raw a (by decide) (fun r => rfl) hp
  | drag => exact drag_roundtrip raw a hp

/-! ## C1 witness -/

/-- C1 witness: the concrete action `left_click(100, 200)`. -/
theorem c1_format_roundtrip_witness :
    (∀ c ∈ ("100, 200").toList, ¬c = ')') ∧
      parse_args .left_click (("100, 200").toList) = some (.coords [100, 200]) ∧
      ∃ g, funcSearch (format_command .left_click (.coords [100, 200])) =
          some (FuncName.left_click, g) ∧
        parse_args .left_click (strip g) = some (.coords [100, 200]) :=
  ⟨by decide, by decide,
    c1_format_roundtrip .left_click (("100, 200").toList) (.coords [100, 200])
      (by decide) (by decide)⟩

/-! ## C4: the narrative is exactly the filtered, stripped, joined lines -/

theorem story_lines_eq_filter (lines : List (List Char)) :
    story_lines lines = (lines.map strip).filter
      (fun s => !s.isEmpty && (funcSearch s).isNone && !startsWithC s fenceChars) := by
  induction lines with
  | nil => rfl
  | cons line rest ih =>
    rw [show (line :: rest).map strip = strip line :: rest.map strip from rfl]
    rw [List.filter_cons]
    by_cases h1 : strip line = []
    · have hp : (!(strip line).isEmpty && (funcSearch (strip line)).isNone &&
          !startsWithC (strip line) fenceChars) = false := by
        simp [h1]
      rw [story_lines, if_pos h1, ih]
      simp only [hp]
      simp
    · by_cases h2 : (funcSearch (strip line)).isSome
      · rcases Option.isSome_iff_exists.1 h2 with ⟨v, hv⟩
        have hp : (!(strip line).isEmpty && (funcSearch (strip line)).isNone &&
            !startsWithC (strip line) fenceChars) = false := by
          simp [hv]
        rw [story_lines, if_neg h1, if_pos h2, ih]
        simp only [hp]
        simp
      · by_cases h3 : startsWithC (strip line) fenceChars
        · have hp : (!(strip line).isEmpty && (funcSearch (strip line)).isNone &&
              !startsWithC (strip line) fenceChars) = false := by
            simp [h3]
          rw [story_lines, if_neg h1, if_neg h2, if_pos h3, ih]
          simp only [hp]
          simp
        · have he : (strip line).isEmpty = false := by
            cases hl : strip line with
            | nil => exact absurd hl h1
            | cons a as => simp
          have hn : (funcSearch (strip line)).isNone = true := by
            cases hv : funcSearch (strip line) with
            | none => simp
            | some v => rw [hv] at h2; simp at h2
          have hs : startsWithC (strip line) fenceChars = false := by
            simpa using h3
          have hp : (!(strip line).isEmpty && (funcSearch (strip line)).isNone &&
              !startsWithC (strip line) fenceChars) = true := by
            simp [he, hn, hs]
          rw [story_lines, if_neg h1, if_neg h2, if_neg h3, ih]
          simp only [hp]
          simp

theorem story_lines_elem_props (lines : List (List Char)) :
    ∀ x ∈ story_lines lines, x ≠ [] ∧
      (∀ c, x.head? = some c → isSpaceC c = false) ∧
      (∀ c, x.getLast? = some c → isSpaceC c = false) := by
  induction lines with
  | nil => intro x hx; simp [story_lines] at hx
  | cons line rest ih =>
    intro x hx
    rw [story_lines] at hx
    by_cases h1 : strip line = []
    · rw [if_pos h1] at hx
      exact ih x hx
    · rw [if_neg h1] at hx
      by_cases h2 : (funcSearch (strip line)).isSome
      · rw [if_pos h2] at hx
        exact ih x hx
      · rw [if_neg h2] at hx
        by_cases h3 : startsWithC (strip line) fenceChars
        · rw [if_pos h3] at hx
          exact ih x hx
        · rw [if_neg h3] at hx
          rcases List.mem_cons.1 hx with rfl | hx2
          · exact ⟨h1, strip_head_not_space line, strip_last_not_space line⟩
          · exact ih x hx2

theorem joinSpace_ne_nil (L : List (List Char)) (hL : L ≠ [])
    (hx : ∀ x ∈ L, x ≠ []) : joinSpace L ≠ [] := by
  cases L with
  | nil => exact absurd rfl hL
  | cons x xs =>
    cases xs with
    | nil => exact hx x (by simp)
    | cons y ys =>
      rw [show joinSpace (x :: y :: ys) = x ++ ' ' :: joinSpace (y :: ys) from rfl]
      simp

theorem joinSpace_head_not_space (L : List (List Char))
    (hL : ∀ x ∈ L, x ≠ [] ∧ (∀ c, x.head? = some c → isSpaceC c = false)) :
    ∀ c, (joinSpace L).head? = some c → isSpaceC c = false := by
  cases L with
  | nil => intro c hc; simp [joinSpace] at hc
  | cons x xs =>
    intro c hc
    have hx := hL x (by simp)
    cases xs with
    | nil => exact hx.2 c (by simpa [joinSpace] using hc)
    | cons y ys =>
      rw [show joinSpace (x :: y :: ys) = x ++ ' ' :: joinSpace (y :: ys) from rfl,
        List.head?_append_of_ne_nil x hx.1] at hc
      exact hx.2 c hc

theorem joinSpace_last_not_space (L : List (List Char))
    (hL : ∀ x ∈ L, x ≠ [] ∧ (∀ c, x.getLast? = some c → isSpaceC c = false)) :
    ∀ c, (joinSpace L).getLast? = some c → isSpaceC c = false := by
  induction L with
  | nil => intro c hc; simp [joinSpace] at hc
  | cons x xs ih =>
    intro c hc
    have hx := hL x (by simp)
    cases xs with
    | nil => exact hx.2 c (by simpa [joinSpace] using hc)
    | cons y ys =>
      have hy := hL y (by simp)
      have hne : joinSpace (y :: ys) ≠ [] :=
        joinSpace_ne_nil (y :: ys) (by simp) (fun z hz => (hL z (by simp [hz])).1)
      rw [show joinSpace (x :: y :: ys) = x ++ ' ' :: joinSpace (y :: ys) from rfl,
        List.getLast?_append_cons] at hc
      have : (' ' :: joinSpace (y :: ys)).getLast? = (joinSpace (y :: ys)).getLast? := by
        cases hJ : joinSpace (y :: ys) with
        | nil => exact absurd hJ hne
        | cons a as => simp
      rw [this] at hc
      exact ih (fun z hz => hL z (by simp [hz])) c hc

/-- C4.  For every input string, the narrative produced by `parse_response`
is exactly the non-blank lines without a recognized action-call match and
not starting a code fence, each stripped, joined with single spaces in the
original order (so a line mixing prose with a call is dropped whole). -/
theorem c4_story_exact (content : List Char) :
    parse_story content = story_spec content := by
  unfold parse_story story_spec
  rw [← story_lines_eq_filter]
  refine strip_eq_self_of_ends _ ?_ ?_
  · exact joinSpace_head_not_space _ (fun x hx =>
      ⟨(story_lines_elem_props _ x hx).1, (story_lines_elem_props _ x hx).2.1⟩)
  · exact joinSpace_last_not_space _ (fun x hx =>
      ⟨(story_lines_elem_props _ x hx).1, (story_lines_elem_props _ x hx).2.2⟩)

/-- C5.  Each cycle keeps the previous story exactly when the parsed
narrative is empty and replaces it wholesale otherwise. -/
theorem c5_story_retention (story content : List Char) :
    update_story story content =
      (if parse_story content = [] then story else parse_story content) := by
  unfold update_story
  by_cases h : parse_story content = []
  · simp [h]
  · simp [h]

/-! ## Buffer lemmas -/

theorem intRange_nil (lo hi : ℤ) (h : hi ≤ lo) : intRange lo hi = [] := by
  unfold intRange
  rw [show (hi - lo).toNat = 0 by omega]
  rfl

theorem stampPix_skip (w h : ℤ) (c : Color) (data : ByteBuf) (px py : ℤ)
    (hout : ¬(0 ≤ px ∧ px < w ∧ 0 ≤ py ∧ py < h)) :
    stampPix w h c data px py = data := by
  unfold stampPix
  exact if_neg hout

theorem writeSlice_length (data : List ℕ) (idx : ℕ) (bs : List ℕ)
    (hb : bs.length = 4) (hle : idx + 4 ≤ data.length) :
    (writeSlice data idx bs).length = data.length := by
  unfold writeSlice
  simp [List.length_take, List.length_drop, hb]
  omega

theorem stampPix_length (w h : ℤ) (c : Color) (data : ByteBuf) (px py : ℤ)
    (hlen : data.length = (w * h * 4).toNat) :
    (stampPix w h c data px py).length = data.length := by
  unfold stampPix
  by_cases hin : 0 ≤ px ∧ px < w ∧ 0 ≤ py ∧ py < h
  · rw [if_pos hin]
    refine writeSlice_length data _ _ (by rfl) ?_
    obtain ⟨h1, h2, h3, h4⟩ := hin
    have hw : 0 < w := by omega
    have hA : 0 ≤ py * w + px := by positivity
    have hmul : py * w ≤ (h - 1) * w :=
      mul_le_mul_of_nonneg_right (by omega) (by omega)
    have hAB : py * w + px + 1 ≤ w * h := by nlinarith
    rw [hlen]
    generalize hA' : py * w + px = A at *
    generalize hB' : w * h = B at *
    omega
  · rw [if_neg hin]

/-- `P data := data.length = N` survives any fold whose body preserves it. -/
theorem foldl_length_preserve {β : Type} (N : ℕ) (g : ByteBuf → β → ByteBuf)
    (hg : ∀ data b, data.length = N → (g data b).length = N) :
    ∀ (l : List β) (data : ByteBuf), data.length = N →
      (List.foldl g data l).length = N :=
  fun l data hd => foldl_preserve (fun d => d.length = N) g (fun a b ha => hg a b ha) l data hd

/-! ## Length preservation per primitive (claim C9) -/

theorem draw_crosshair_length (rgba : ByteBuf) (w h x y size : ℤ) (c : Color) (t : ℤ)
    (hlen : rgba.length = (w * h * 4).toNat) :
    (draw_crosshair rgba w h x y size c t).length = (w * h * 4).toNat := by
  unfold draw_crosshair
  set N := (w * h * 4).toNat with hN
  have hstamp : ∀ (data : ByteBuf) (px py : ℤ), data.length = N →
      (stampPix w h c data px py).length = N := by
    intro data px py hd
    rw [stampPix_length w h c data px py (by rw [hd])]
    exact hd
  have hinner : ∀ (off : ℤ) (data : ByteBuf), data.length = N →
      ((thickRange t).foldl (fun acc2 dy => stampPix w h c acc2 (x + off) (y + dy)) data).length = N :=
    fun off => fun data hd => foldl_length_preserve N _
      (fun d b hdd => hstamp d (x + off) (y + b) hdd) (thickRange t) data hd
  have hinner2 : ∀ (off : ℤ) (data : ByteBuf), data.length = N →
      ((thickRange t).foldl (fun acc2 dx => stampPix w h c acc2 (x + dx) (y + off)) data).length = N :=
    fun off => fun data hd => foldl_length_preserve N _
      (fun d b hdd => hstamp d (x + b) (y + off) hdd) (thickRange t) data hd
  have h1 := foldl_length_preserve N
    (fun acc dx => (thickRange t).foldl (fun acc2 dy => stampPix w h c acc2 (x + dx) (y + dy)) acc)
    (fun d b hd => hinner b d hd) (intRange (-size) (size + 1)) rgba hlen
  have h2 := foldl_length_preserve N
    (fun acc dy => (thickRange t).foldl (fun acc2 dx => stampPix w h c acc2 (x + dx) (y + dy)) acc)
    (fun d b hd => hinner2 b d hd) (intRange (-size) (size + 1)) _ h1
  exact foldl_length_preserve N
    (fun acc cy => (intRange (-3) 4).foldl
      (fun acc2 cx => if cx * cx + cy * cy ≤ 3 * 3 then stampPix w h c acc2 (x + cx) (y + cy)
        else acc2) acc)
    (fun d b hd => foldl_length_preserve N _
      (fun d2 b2 hd2 => by
        by_cases hc : b2 * b2 + b * b ≤ 3 * 3
        · rw [if_pos hc]; exact hstamp d2 (x + b2) (y + b) hd2
        · rw [if_neg hc]; exact hd2) (intRange (-3) 4) d hd)
    (intRange (-3) 4) _ h2

theorem draw_circle_length (rgba : ByteBuf) (w h x y radius : ℤ) (c : Color) (filled : Bool)
    (hlen : rgba.length = (w * h * 4).toNat) :
    (draw_circle rgba w h x y radius c filled).length = (w * h * 4).toNat := by
  unfold draw_circle
  set N := (w * h * 4).toNat with hN
  have hstamp : ∀ (data : ByteBuf) (px py : ℤ), data.length = N →
      (stampPix w h c data px py).length = N := by
    intro data px py hd
    rw [stampPix_length w h c data px py (by rw [hd])]
    exact hd
  refine foldl_length_preserve N _ (fun d cy hd => foldl_length_preserve N _
    (fun d2 cx hd2 => ?_) (intRange (-radius) (radius + 1)) d hd)
    (intRange (-radius) (radius + 1)) rgba hlen
  by_cases hf : filled
  · simp only [hf, if_true]
    by_cases hc : cx * cx + cy * cy ≤ radius * radius
    · rw [if_pos hc]; exact hstamp d2 (x + cx) (y + cy) hd2
    · rw [if_neg hc]; exact hd2
  · simp only [hf, if_false]
    by_cases hc : (radius - 2) * (radius - 2) ≤ cx * cx + cy * cy ∧
        cx * cx + cy * cy ≤ radius * radius
    · rw [if_pos hc]; exact hstamp d2 (x + cx) (y + cy) hd2
    · rw [if_neg hc]; exact hd2

theorem stampThick_length (w h : ℤ) (c : Color) (t : ℤ) (data : ByteBuf) (x y : ℤ)
    (hlen : data.length = (w * h * 4).toNat) :
    (stampThick w h c t data x y).length = (w * h * 4).toNat := by
  unfold stampThick
  set N := (w * h * 4).toNat with hN
  refine foldl_length_preserve N _ (fun d ty hd => foldl_length_preserve N _
    (fun d2 tx hd2 => ?_) (thickRange t) d hd) (thickRange t) data hlen
  rw [stampPix_length w h c d2 (x + tx) (y + ty) (by rw [hd2])]
  exact hd2

theorem lineLoop_length (w h : ℤ) (c : Color) (t x2 y2 sx sy dx dy : ℤ) :
    ∀ (fuel : ℕ) (x y err : ℤ) (data : ByteBuf) (trace : List (ℤ × ℤ))
      (res : ByteBuf × List (ℤ × ℤ)),
      lineLoop w h c t x2 y2 sx sy dx dy fuel x y err data trace = some res →
      data.length = (w * h * 4).toNat → res.1.length = (w * h * 4).toNat := by
  intro fuel
  induction fuel with
  | zero => intro x y err data trace res hres; simp [lineLoop] at hres
  | succ f ih =>
    intro x y err data trace res hres hlen
    rw [lineLoop] at hres
    by_cases hend : x = x2 ∧ y = y2
    · rw [if_pos hend] at hres
      have := Option.some.inj hres
      rw [← this]
      exact stampThick_length w h c t data x y hlen
    · rw [if_neg hend] at hres
      exact ih _ _ _ _ _ res hres (stampThick_length w h c t data x y hlen)

theorem draw_line_length (rgba : ByteBuf) (w h x1 y1 x2 y2 : ℤ) (c : Color) (t : ℤ)
    (hlen : rgba.length = (w * h * 4).toNat) :
    (draw_line rgba w h x1 y1 x2 y2 c t).length = (w * h * 4).toNat := by
  unfold draw_line
  rcases hres : lineLoop w h c t x2 y2 (if x1 < x2 then 1 else -1) (if y1 < y2 then 1 else -1)
      |x2 - x1| |y2 - y1| (lineFuel |x2 - x1| |y2 - y1|) x1 y1 (|x2 - x1| - |y2 - y1|) rgba []
    with _ | r
  · simp only [hres]
    exact hlen
  · simp only [hres]
    exact lineLoop_length w h c t x2 y2 _ _ _ _ _ _ _ _ rgba [] r hres hlen

theorem draw_arrowWith_length (rgba : ByteBuf) (w h x1 y1 x2 y2 lx ly rx ry : ℤ)
    (c : Color) (t : ℤ) (hlen : rgba.length = (w * h * 4).toNat) :
    (draw_arrowWith rgba w h x1 y1 x2 y2 lx ly rx ry c t).length = (w * h * 4).toNat := by
  unfold draw_arrowWith
  exact draw_line_length _ w h _ _ _ _ c t
    (draw_line_length _ w h _ _ _ _ c t (draw_line_length rgba w h _ _ _ _ c t hlen))

theorem draw_rectangle_length (rgba : ByteBuf) (w h x1 y1 x2 y2 : ℤ) (c : Color) (t : ℤ)
    (hlen : rgba.length = (w * h * 4).toNat) :
    (draw_rectangle rgba w h x1 y1 x2 y2 c t).length = (w * h * 4).toNat := by
  unfold draw_rectangle
  exact draw_line_length _ w h _ _ _ _ c t (draw_line_length _ w h _ _ _ _ c t
    (draw_line_length _ w h _ _ _ _ c t (draw_line_length rgba w h _ _ _ _ c t hlen)))

theorem stampCell_length (w h : ℤ) (c : Color) (data : ByteBuf) (px py : ℤ)
    (hlen : data.length = (w * h * 4).toNat) :
    (stampCell w h c data px py).length = (w * h * 4).toNat := by
  unfold stampCell
  set N := (w * h * 4).toNat with hN
  refine foldl_length_preserve N _ (fun d sy hd => foldl_length_preserve N _
    (fun d2 sx hd2 => ?_) (List.range 2) d hd) (List.range 2) data hlen
  rw [stampPix_length w h c d2 (px + (sx : ℤ)) (py + (sy : ℤ)) (by rw [hd2])]
  exact hd2

theorem digitStep_length (w h : ℤ) (c : Color) (x y : ℤ) (st : ByteBuf × ℤ) (ch : Char)
    (hlen : st.1.length = (w * h * 4).toNat) :
    (digitStep w h c x y st ch).1.length = (w * h * 4).toNat := by
  unfold digitStep
  set N := (w * h * 4).toNat with hN
  rcases hg : digitGlyph (digVal ch) with _ | glyph
  · simp only [hg]
    exact hlen
  · simp only [hg]
    refine foldl_length_preserve N _ (fun d row hd => foldl_length_preserve N _
      (fun d2 cell hd2 => ?_) row.2.enum d hd) glyph.enum st.1 hlen
    by_cases hc : cell.2 = '#'
    · rw [if_pos hc]
      exact stampCell_length w h c d2 _ _ hd2
    · rw [if_neg hc]
      exact hd2

theorem draw_action_number_length (rgba : ByteBuf) (w h x y : ℤ) (number : ℕ) (c : Color)
    (hlen : rgba.length = (w * h * 4).toNat) :
    (draw_action_number rgba w h x y number c).length = (w * h * 4).toNat := by
  unfold draw_action_number
  have : ∀ (chars : List Char) (st : ByteBuf × ℤ), st.1.length = (w * h * 4).toNat →
      ((chars.foldl (digitStep w h c x y) st).1).length = (w * h * 4).toNat := by
    intro chars
    induction chars with
    | nil => intro st hst; exact hst
    | cons ch rest ih =>
      intro st hst
      exact ih (digitStep w h c x y st ch) (digitStep_length w h c x y st ch hst)
  exact this (natToChars number) (rgba, 0) hlen

/-- C9.  Every raster primitive — crosshair, circle, line, arrow, rectangle,
digit glyph — maps a buffer of exactly `width*height*4` bytes to a buffer of
exactly `width*height*4` bytes. -/
theorem c9_length_invariant (w h : ℤ) (rgba : ByteBuf)
    (hlen : rgba.length = (w * h * 4).toNat) :
    (∀ x y size c t, (draw_crosshair rgba w h x y size c t).length = (w * h * 4).toNat) ∧
    (∀ x y radius c filled, (draw_circle rgba w h x y radius c filled).length = (w * h * 4).toNat) ∧
    (∀ x1 y1 x2 y2 c t, (draw_line rgba w h x1 y1 x2 y2 c t).length = (w * h * 4).toNat) ∧
    (∀ x1 y1 x2 y2 lx ly rx ry c t,
      (draw_arrowWith rgba w h x1 y1 x2 y2 lx ly rx ry c t).length = (w * h * 4).toNat) ∧
    (∀ x1 y1 x2 y2 c t, (draw_rectangle rgba w h x1 y1 x2 y2 c t).length = (w * h * 4).toNat) ∧
    (∀ x y number c, (draw_action_number rgba w h x y number c).length = (w * h * 4).toNat) :=
  ⟨fun x y size c t => draw_crosshair_length rgba w h x y size c t hlen,
   fun x y radius c filled => draw_circle_length rgba w h x y radius c filled hlen,
   fun x1 y1 x2 y2 c t => draw_line_length rgba w h x1 y1 x2 y2 c t hlen,
   fun x1 y1 x2 y2 lx ly rx ry c t =>
     draw_arrowWith_length rgba w h x1 y1 x2 y2 lx ly rx ry c t hlen,
   fun x1 y1 x2 y2 c t => draw_rectangle_length rgba w h x1 y1 x2 y2 c t hlen,
   fun x y number c => draw_action_number_length rgba w h x y number c hlen⟩

/-- C9 witness: a 1×1 buffer through all six primitives. -/
theorem c9_length_invariant_witness :
    (draw_crosshair [0, 0, 0, 0] 1 1 0 0 1 RED 1).length = ((1 : ℤ) * 1 * 4).toNat ∧
    (draw_circle [0, 0, 0, 0] 1 1 0 0 1 GREEN false).length = ((1 : ℤ) * 1 * 4).toNat ∧
    (draw_line [0, 0, 0, 0] 1 1 0 0 1 1 BLUE 1).length = ((1 : ℤ) * 1 * 4).toNat ∧
    (draw_arrowWith [0, 0, 0, 0] 1 1 0 0 1 1 0 1 1 0 BLUE 1).length = ((1 : ℤ) * 1 * 4).toNat ∧
    (draw_rectangle [0, 0, 0, 0] 1 1 0 0 1 1 YELLOW 1).length = ((1 : ℤ) * 1 * 4).toNat ∧
    (draw_action_number [0, 0, 0, 0] 1 1 0 0 1 RED).length = ((1 : ℤ) * 1 * 4).toNat := by
  have h := c9_length_invariant 1 1 [0, 0, 0, 0] (by decide)
  exact ⟨h.1 0 0 1 RED 1, h.2.1 0 0 1 GREEN false, h.2.2.1 0 0 1 1 BLUE 1,
    h.2.2.2.1 0 0 1 1 0 1 1 0 BLUE 1, h.2.2.2.2.1 0 0 1 1 YELLOW 1,
    h.2.2.2.2.2 0 0 1 RED⟩

/-! ## C7: primitives entirely outside the buffer change nothing -/

/-- C7.  A crosshair or circle call all of whose stamped pixels fall outside
`[0,width) × [0,height)` returns the buffer unchanged byte-for-byte. -/
theorem c7_outside_unchanged :
    (∀ (rgba : ByteBuf) (w h x y size : ℤ) (c : Color) (t : ℤ),
      (∀ dx ∈ intRange (-size) (size + 1), ∀ dy ∈ thickRange t,
        ¬(0 ≤ x + dx ∧ x + dx < w ∧ 0 ≤ y + dy ∧ y + dy < h)) →
      (∀ dy ∈ intRange (-size) (size + 1), ∀ dx ∈ thickRange t,
        ¬(0 ≤ x + dx ∧ x + dx < w ∧ 0 ≤ y + dy ∧ y + dy < h)) →
      (∀ cy ∈ intRange (-3) 4, ∀ cx ∈ intRange (-3) 4, cx * cx + cy * cy ≤ 3 * 3 →
        ¬(0 ≤ x + cx ∧ x + cx < w ∧ 0 ≤ y + cy ∧ y + cy < h)) →
      draw_crosshair rgba w h x y size c t = rgba) ∧
    (∀ (rgba : ByteBuf) (w h x y radius : ℤ) (c : Color) (filled : Bool),
      (∀ cy ∈ intRange (-radius) (radius + 1), ∀ cx ∈ intRange (-radius) (radius + 1),
        ((filled = true ∧ cx * cx + cy * cy ≤ radius * radius) ∨
         (filled = false ∧ (radius - 2) * (radius - 2) ≤ cx * cx + cy * cy ∧
           cx * cx + cy * cy ≤ radius * radius)) →
        ¬(0 ≤ x + cx ∧ x + cx < w ∧ 0 ≤ y + cy ∧ y + cy < h)) →
      draw_circle rgba w h x y radius c filled = rgba) := by
  constructor
  · intro rgba w h x y size c t h1 h2 h3
    simp only [draw_crosshair]
    have hd1 : List.foldl
        (fun acc dx => List.foldl (fun acc2 dy => stampPix w h c acc2 (x + dx) (y + dy)) acc
          (thickRange t)) rgba (intRange (-size) (size + 1)) = rgba := by
      refine foldl_fix _ rgba _ ?_
      intro dx hdx
      refine foldl_fix _ rgba _ ?_
      intro dy hdy
      exact stampPix_skip w h c rgba (x + dx) (y + dy) (h1 dx hdx dy hdy)
    have hd2 : List.foldl
        (fun acc dy => List.foldl (fun acc2 dx => stampPix w h c acc2 (x + dx) (y + dy)) acc
          (thickRange t)) rgba (intRange (-size) (size + 1)) = rgba := by
      refine foldl_fix _ rgba _ ?_
      intro dy hdy
      refine foldl_fix _ rgba _ ?_
      intro dx hdx
      exact stampPix_skip w h c rgba (x + dx) (y + dy) (h2 dy hdy dx hdx)
    have hd3 : List.foldl
        (fun acc cy => List.foldl
          (fun acc2 cx => if cx * cx + cy * cy ≤ 3 * 3 then stampPix w h c acc2 (x + cx) (y + cy)
            else acc2) acc (intRange (-3) 4)) rgba (intRange (-3) 4) = rgba := by
      refine foldl_fix _ rgba _ ?_
      intro cy hcy
      refine foldl_fix _ rgba _ ?_
      intro cx hcx
      by_cases hc : cx * cx + cy * cy ≤ 3 * 3
      · rw [if_pos hc]
        exact stampPix_skip w h c rgba (x + cx) (y + cy) (h3 cy hcy cx hcx hc)
      · rw [if_neg hc]
    rw [hd1, hd2, hd3]
  · intro rgba w h x y radius c filled hout
    simp only [draw_circle]
    refine foldl_fix _ rgba _ ?_
    intro cy hcy
    refine foldl_fix _ rgba _ ?_
    intro cx hcx
    split_ifs with hf hc hc
    · exact stampPix_skip w h c rgba (x + cx) (y + cy)
        (hout cy hcy cx hcx (Or.inl ⟨hf, hc⟩))
    · rfl
    · exact stampPix_skip w h c rgba (x + cx) (y + cy)
        (hout cy hcy cx hcx (Or.inr ⟨by simpa using hf, hc.1, hc.2⟩))
    · rfl

/-- C7 witness: a crosshair and a circle far outside a 2×2 buffer. -/
theorem c7_outside_unchanged_witness :
    draw_crosshair [0, 0, 0, 0, 0, 0, 0, 0, 0, 0, 0, 0, 0, 0, 0, 0] 2 2 (-100) (-100) 2 RED 2 =
      [0, 0, 0, 0, 0, 0, 0, 0, 0, 0, 0, 0, 0, 0, 0, 0] ∧
    draw_circle [0, 0, 0, 0, 0, 0, 0, 0, 0, 0, 0, 0, 0, 0, 0, 0] 2 2 (-100) (-100) 3 GREEN false =
      [0, 0, 0, 0, 0, 0, 0, 0, 0, 0, 0, 0, 0, 0, 0, 0] :=
  ⟨c7_outside_unchanged.1 _ 2 2 (-100) (-100) 2 RED 2 (by decide) (by decide) (by decide),
   c7_outside_unchanged.2 _ 2 2 (-100) (-100) 3 GREEN false (by decide)⟩

/-! ## C10: negative radius is a silent no-op -/

/-- C10.  `draw_circle` with a negative radius performs no writes: the
bounding-square ranges are empty, so the input buffer is returned as is. -/
theorem c10_negative_radius_noop (rgba : ByteBuf) (w h x y radius : ℤ) (c : Color)
    (filled : Bool) (hneg : radius < 0) :
    draw_circle rgba w h x y radius c filled = rgba := by
  unfold draw_circle
  rw [intRange_nil (-radius) (radius + 1) (by omega)]
  rfl

/-- C10 witness: radius `-3` on a 1×1 buffer. -/
theorem c10_negative_radius_noop_witness :
    draw_circle [9, 9, 9, 9] 1 1 0 0 (-3) RED true = [9, 9, 9, 9] :=
  c10_negative_radius_noop [9, 9, 9, 9] 1 1 0 0 (-3) RED true (by decide)

/-! ## C6: the radius-0 / radius-1 hollow circle -/

/-- C6 counterexample.  A hollow circle of radius 1 centred inside a 3×3
buffer writes four pixels (the four offsets at squared distance 1), not
"zero or a single pixel": bytes 4 and 12 start two distinct changed pixels. -/
theorem c6_counterexample :
    (draw_circle (List.replicate 36 0) 3 3 1 1 1 RED false)[4]? = some 255 ∧
    (draw_circle (List.replicate 36 0) 3 3 1 1 1 RED false)[12]? = some 255 ∧
    (List.replicate 36 (0 : ℕ))[4]? = some 0 ∧
    (List.replicate 36 (0 : ℕ))[12]? = some 0 := by decide

/-- C6 as amended.  A hollow radius-0 circle performs no writes and returns
the buffer unchanged; a hollow radius-1 circle stamps exactly the four
pixels at squared distance 1 from the centre (each clipped by the bounds
guard), in loop order; neither call can fail. -/
theorem c6_amended_radius01 (rgba : ByteBuf) (w h x y : ℤ) (c : Color) :
    draw_circle rgba w h x y 0 c false = rgba ∧
    draw_circle rgba w h x y 1 c false =
      stampPix w h c (stampPix w h c (stampPix w h c (stampPix w h c rgba
        (x + 0) (y + -1)) (x + -1) (y + 0)) (x + 1) (y + 0)) (x + 0) (y + 1) := by
  constructor
  · rfl
  · rfl

/-! ## C8: the Bresenham loop terminates exactly at `p2` -/

theorem lineLoop_reaches (w h : ℤ) (c : Color) (t x1 y1 x2 y2 sx sy dx dy : ℤ)
    (hsx : sx = 1 ∨ sx = -1) (hsy : sy = 1 ∨ sy = -1)
    (hdx : 0 ≤ dx) (hdy : 0 ≤ dy)
    (hx2 : x1 + sx * dx = x2) (hy2 : y1 + sy * dy = y2) :
    ∀ (fuel : ℕ) (i j : ℤ), 0 ≤ i → i ≤ dx → 0 ≤ j → j ≤ dy →
      dx - i + (dy - j) < (fuel : ℤ) →
      ∀ (data : ByteBuf) (trace : List (ℤ × ℤ)),
        ∃ r, lineLoop w h c t x2 y2 sx sy dx dy fuel (x1 + sx * i) (y1 + sy * j)
            (dx * (j + 1) - dy * (i + 1)) data trace = some r ∧
          r.2.getLast? = some (x2, y2) := by
  intro fuel
  induction fuel with
  | zero =>
    intro i j h0i hidx h0j hjdy hfuel data trace
    exfalso
    simp only [Nat.cast_zero] at hfuel
    omega
  | succ f ih =>
    intro i j h0i hidx h0j hjdy hfuel data trace
    simp only [lineLoop]
    have hsxne : sx ≠ 0 := by rcases hsx with rfl | rfl <;> omega
    have hsyne : sy ≠ 0 := by rcases hsy with rfl | rfl <;> omega
    by_cases hend : i = dx ∧ j = dy
    · have hxx : x1 + sx * i = x2 := by rw [hend.1]; exact hx2
      have hyy : y1 + sy * j = y2 := by rw [hend.2]; exact hy2
      rw [if_pos ⟨hxx, hyy⟩]
      refine ⟨_, rfl, ?_⟩
      rw [hxx, hyy]
      exact List.getLast?_concat _
    · have hiff : (x1 + sx * i = x2 ∧ y1 + sy * j = y2) → (i = dx ∧ j = dy) := by
        intro hc
        constructor
        · have h1 : sx * i = sx * dx := by
            have := hc.1
            rw [← hx2] at this
            omega
          exact mul_left_cancel₀ hsxne h1
        · have h1 : sy * j = sy * dy := by
            have := hc.2
            rw [← hy2] at this
            omega
          exact mul_left_cancel₀ hsyne h1
      rw [if_neg (fun hc => hend (hiff hc))]
      by_cases hX : -dy < 2 * (dx * (j + 1) - dy * (i + 1))
      · have hi1 : i + 1 ≤ dx := by
          by_cases hi : i = dx
          · exfalso
            have hj : j < dy := by
              rcases lt_or_eq_of_le hjdy with h | h
              · exact h
              · exact absurd ⟨hi, h⟩ hend
            have hj1 : j + 1 ≤ dy := by omega
            have hx1 : dx * (j + 1) ≤ dx * dy := mul_le_mul_of_nonneg_left hj1 hdx
            nlinarith
          · omega
        by_cases hY : 2 * (dx * (j + 1) - dy * (i + 1)) < dx
        · -- both axes step
          have hj1 : j + 1 ≤ dy := by
            by_cases hj : j = dy
            · exfalso
              have hi' : i < dx := by
                rcases lt_or_eq_of_le hidx with h | h
                · exact h
                · exact absurd ⟨h, hj⟩ hend
              have hi1' : i + 1 ≤ dx := by omega
              have hx1 : dy * (i + 1) ≤ dy * dx := mul_le_mul_of_nonneg_left hi1' hdy
              nlinarith
            · omega
          rw [if_pos hX, if_pos hX, if_pos hY, if_pos hY]
          rw [show x1 + sx * i + sx = x1 + sx * (i + 1) from by ring,
            show y1 + sy * j + sy = y1 + sy * (j + 1) from by ring,
            show dx * (j + 1) - dy * (i + 1) - dy + dx =
              dx * ((j + 1) + 1) - dy * ((i + 1) + 1) from by ring]
          refine ih (i + 1) (j + 1) (by omega) hi1 (by omega) hj1 ?_ _ _
          push_cast at hfuel ⊢
          omega
        · -- only the x axis steps
          rw [if_pos hX, if_pos hX, if_neg hY, if_neg hY]
          rw [show x1 + sx * i + sx = x1 + sx * (i + 1) from by ring,
            show dx * (j + 1) - dy * (i + 1) - dy =
              dx * (j + 1) - dy * ((i + 1) + 1) from by ring]
          refine ih (i + 1) j (by omega) hi1 h0j hjdy ?_ _ _
          push_cast at hfuel ⊢
          omega
      · by_cases hY : 2 * (dx * (j + 1) - dy * (i + 1)) < dx
        · -- only the y axis steps
          have hj1 : j + 1 ≤ dy := by
            by_cases hj : j = dy
            · exfalso
              have hi' : i < dx := by
                rcases lt_or_eq_of_le hidx with h | h
                · exact h
                · exact absurd ⟨h, hj⟩ hend
              have hi1' : i + 1 ≤ dx := by omega
              have hx1 : dy * (i + 1) ≤ dy * dx := mul_le_mul_of_nonneg_left hi1' hdy
              nlinarith
            · omega
          rw [if_neg hX, if_neg hX, if_pos hY, if_pos hY]
          rw [show y1 + sy * j + sy = y1 + sy * (j + 1) from by ring,
            show dx * (j + 1) - dy * (i + 1) + dx =
              dx * ((j + 1) + 1) - dy * (i + 1) from by ring]
          refine ih i (j + 1) h0i hidx (by omega) hj1 ?_ _ _
          push_cast at hfuel ⊢
          omega
        · -- by the sign analysis at least one axis must step
          exfalso
          have h1 : 2 * (dx * (j + 1) - dy * (i + 1)) ≤ -dy := by omega
          have h2 : dx ≤ 2 * (dx * (j + 1) - dy * (i + 1)) := by omega
          have h3 : dx ≤ -dy := le_trans h2 h1
          have h4 : dx = 0 := by omega
          have h5 : dy = 0 := by omega
          exact hend ⟨by omega, by omega⟩

/-- C8.  For every pair of endpoints and every thickness, the Bresenham
stepping loop of `draw_line` terminates (within its fuel, i.e. the
`while True` loop breaks), and the last centre it stamps before stopping is
exactly `(x2, y2)` — the traced line ends at `p2` inclusive.  `draw_line`
returns precisely the buffer of that completed run. -/
theorem c8_line_terminates_at_p2 (rgba : ByteBuf) (w h x1 y1 x2 y2 : ℤ)
    (c : Color) (t : ℤ) :
    ∃ r, lineLoop w h c t x2 y2 (if x1 < x2 then 1 else -1) (if y1 < y2 then 1 else -1)
        |x2 - x1| |y2 - y1| (lineFuel |x2 - x1| |y2 - y1|) x1 y1 (|x2 - x1| - |y2 - y1|)
        rgba [] = some r ∧
      r.2.getLast? = some (x2, y2) ∧ draw_line rgba w h x1 y1 x2 y2 c t = r.1 := by
  have hsx : (if x1 < x2 then (1 : ℤ) else -1) = 1 ∨ (if x1 < x2 then (1 : ℤ) else -1) = -1 := by
    by_cases hc : x1 < x2 <;> simp [hc]
  have hsy : (if y1 < y2 then (1 : ℤ) else -1) = 1 ∨ (if y1 < y2 then (1 : ℤ) else -1) = -1 := by
    by_cases hc : y1 < y2 <;> simp [hc]
  have hx2 : x1 + (if x1 < x2 then (1 : ℤ) else -1) * |x2 - x1| = x2 := by
    by_cases hc : x1 < x2
    · rw [if_pos hc, abs_of_nonneg (by omega : (0 : ℤ) ≤ x2 - x1)]
      ring
    · rw [if_neg hc, abs_of_nonpos (by omega : x2 - x1 ≤ (0 : ℤ))]
      ring
  have hy2 : y1 + (if y1 < y2 then (1 : ℤ) else -1) * |y2 - y1| = y2 := by
    by_cases hc : y1 < y2
    · rw [if_pos hc, abs_of_nonneg (by omega : (0 : ℤ) ≤ y2 - y1)]
      ring
    · rw [if_neg hc, abs_of_nonpos (by omega : y2 - y1 ≤ (0 : ℤ))]
      ring
  have habs1 : (0 : ℤ) ≤ |x2 - x1| := abs_nonneg _
  have habs2 : (0 : ℤ) ≤ |y2 - y1| := abs_nonneg _
  have hfuel : |x2 - x1| - 0 + (|y2 - y1| - 0) < ((lineFuel |x2 - x1| |y2 - y1| : ℕ) : ℤ) := by
    unfold lineFuel
    push_cast
    omega
  obtain ⟨r, hr, hlast⟩ := lineLoop_reaches w h c t x1 y1 x2 y2
    (if x1 < x2 then 1 else -1) (if y1 < y2 then 1 else -1) |x2 - x1| |y2 - y1|
    hsx hsy habs1 habs2 hx2 hy2 (lineFuel |x2 - x1| |y2 - y1|) 0 0
    le_rfl habs1 le_rfl habs2 hfuel rgba []
  rw [show x1 + (if x1 < x2 then (1 : ℤ) else -1) * 0 = x1 from by ring,
    show y1 + (if y1 < y2 then (1 : ℤ) else -1) * 0 = y1 from by ring,
    show |x2 - x1| * (0 + 1) - |y2 - y1| * (0 + 1) = |x2 - x1| - |y2 - y1| from by ring] at hr
  refine ⟨r, hr, hlast, ?_⟩
  simp only [draw_line]
  rw [hr]

/-! ## Binary64 model: basic facts -/

theorem log2fuel_correct : ∀ (fuel n : ℕ), 1 ≤ n → n ≤ fuel →
    2 ^ log2fuel fuel n ≤ n ∧ n < 2 ^ (log2fuel fuel n + 1) := by
  intro fuel
  induction fuel with
  | zero => intro n h1 h2; omega
  | succ f ih =>
    intro n h1 h2
    rw [log2fuel]
    by_cases h : 2 ≤ n
    · rw [if_pos h]
      have hrec := ih (n / 2) (by omega) (by omega)
      rcases hrec with ⟨hlo, hhi⟩
      constructor
      · rw [pow_succ]
        omega
      · rw [pow_succ, pow_succ]
        omega
    · rw [if_neg h]
      simp
      omega

theorem natLog2_correct (n : ℕ) (h1 : 1 ≤ n) :
    2 ^ natLog2 n ≤ n ∧ n < 2 ^ (natLog2 n + 1) :=
  log2fuel_correct n n h1 le_rfl

theorem pow2_eq_zpow (e : ℤ) : pow2 e = (2 : ℚ) ^ e := by
  unfold pow2
  by_cases h : 0 ≤ e
  · rw [if_pos h]
    push_cast
    rw [← zpow_natCast (2 : ℚ) e.toNat, Int.toNat_of_nonneg h]
  · rw [if_neg h]
    push_cast
    rw [← zpow_natCast (2 : ℚ) (-e).toNat, Int.toNat_of_nonneg (by omega), zpow_neg]
    simp

theorem pow2_pos (e : ℤ) : 0 < pow2 e := by
  rw [pow2_eq_zpow]
  exact zpow_pos (by norm_num) e

theorem pow2_add (a b : ℤ) : pow2 (a + b) = pow2 a * pow2 b := by
  rw [pow2_eq_zpow, pow2_eq_zpow, pow2_eq_zpow]
  exact zpow_add₀ (by norm_num) a b

theorem pow2_mono {a b : ℤ} (h : a ≤ b) : pow2 a ≤ pow2 b := by
  rw [pow2_eq_zpow, pow2_eq_zpow]
  exact zpow_le_zpow_right₀ (by norm_num) h

theorem pow2_lt_iff {a b : ℤ} : pow2 a < pow2 b ↔ a < b := by
  rw [pow2_eq_zpow, pow2_eq_zpow]
  exact zpow_lt_zpow_iff_right₀ (by norm_num)

/-- `flog2` satisfies the defining property of the binary exponent. -/
theorem flog2_correct (q : ℚ) (hq : 0 < q) :
    pow2 (flog2 q) ≤ q ∧ q < pow2 (flog2 q + 1) := by
  have hnum : 0 < q.num := Rat.num_pos.2 hq
  have ha1 : 1 ≤ q.num.toNat := by omega
  have hb1 : 1 ≤ q.den := q.den_pos
  obtain ⟨hla, hha⟩ := natLog2_correct q.num.toNat ha1
  obtain ⟨hlb, hhb⟩ := natLog2_correct q.den hb1
  set la := natLog2 q.num.toNat with hla'
  set lb := natLog2 q.den with hlb'
  set d : ℤ := (la : ℤ) - (lb : ℤ) with hd
  have hqnd : ((q.num.toNat : ℤ) : ℚ) / ((q.den : ℤ) : ℚ) = q := by
    rw [show ((q.num.toNat : ℤ) : ℚ) = ((q.num : ℤ) : ℚ) by norm_cast; omega]
    exact_mod_cast Rat.num_div_den q
  have hdenpos : (0 : ℚ) < ((q.den : ℤ) : ℚ) := by exact_mod_cast q.den_pos
  -- q < 2^(d+1)
  have hupper : q < pow2 (d + 1) := by
    rw [← hqnd]
    rw [div_lt_iff₀ hdenpos]
    have e1 : pow2 (d + 1) * ((q.den : ℤ) : ℚ) ≥ pow2 (d + 1) * pow2 lb := by
      have : pow2 (lb : ℤ) ≤ ((q.den : ℤ) : ℚ) := by
        rw [pow2_eq_zpow, zpow_natCast]
        exact_mod_cast hlb
      exact mul_le_mul_of_nonneg_left this (le_of_lt (pow2_pos _))
    have e2 : pow2 (d + 1) * pow2 (lb : ℤ) = pow2 ((la : ℤ) + 1) := by
      rw [← pow2_add]
      congr 1
      omega
    have e3 : ((q.num.toNat : ℤ) : ℚ) < pow2 ((la : ℤ) + 1) := by
      rw [show ((la : ℤ) + 1) = (((la + 1 : ℕ) : ℤ)) by push_cast; ring]
      rw [pow2_eq_zpow, zpow_natCast]
      exact_mod_cast hha
    calc ((q.num.toNat : ℤ) : ℚ) < pow2 ((la : ℤ) + 1) := e3
      _ = pow2 (d + 1) * pow2 (lb : ℤ) := e2.symm
      _ ≤ pow2 (d + 1) * ((q.den : ℤ) : ℚ) := e1
  -- 2^(d-1) < q
  have hlower : pow2 (d - 1) < q := by
    rw [← hqnd]
    rw [lt_div_iff₀ hdenpos]
    have e1 : pow2 (d - 1) * ((q.den : ℤ) : ℚ) < pow2 (d - 1) * pow2 ((lb : ℤ) + 1) := by
      have : ((q.den : ℤ) : ℚ) < pow2 ((lb : ℤ) + 1) := by
        rw [show ((lb : ℤ) + 1) = (((lb + 1 : ℕ) : ℤ)) by push_cast; ring]
        rw [pow2_eq_zpow, zpow_natCast]
        exact_mod_cast hhb
      exact mul_lt_mul_of_pos_left this (pow2_pos _)
    have e2 : pow2 (d - 1) * pow2 ((lb : ℤ) + 1) = pow2 (la : ℤ) := by
      rw [← pow2_add]
      congr 1
      omega
    have e3 : pow2 (la : ℤ) ≤ ((q.num.toNat : ℤ) : ℚ) := by
      rw [pow2_eq_zpow, zpow_natCast]
      exact_mod_cast hla
    calc pow2 (d - 1) * ((q.den : ℤ) : ℚ) < pow2 (la : ℤ) := e1.trans_eq e2
      _ ≤ ((q.num.toNat : ℤ) : ℚ) := e3
  unfold flog2
  rw [← hla', ← hlb', ← hd]
  by_cases hc : q < pow2 d
  · rw [if_pos hc]
    exact ⟨le_of_lt hlower, by rw [show d - 1 + 1 = d by ring]; exact hc⟩
  · rw [if_neg hc]
    exact ⟨le_of_not_lt hc, hupper⟩

/-! ## Round-half-to-even facts -/

theorem rhe_intCast (n : ℤ) : rhe (n : ℚ) = n := by
  unfold rhe
  rw [Int.floor_intCast]
  norm_num

theorem rhe_mem (q : ℚ) : rhe q = ⌊q⌋ ∨ rhe q = ⌊q⌋ + 1 := by
  unfold rhe
  split_ifs <;> simp

theorem rhe_ge_floor (q : ℚ) : ⌊q⌋ ≤ rhe q := by
  rcases rhe_mem q with h | h <;> omega

theorem rhe_le_half (q : ℚ) : (rhe q : ℚ) ≤ q + 1 / 2 := by
  have hfl := Int.floor_le q
  have hlt := Int.lt_floor_add_one q
  unfold rhe
  split_ifs with h1 h2 h3 <;> push_cast <;> linarith

theorem rhe_ge_half (q : ℚ) : q - 1 / 2 ≤ (rhe q : ℚ) := by
  have hfl := Int.floor_le q
  have hlt := Int.lt_floor_add_one q
  unfold rhe
  split_ifs with h1 h2 h3 <;> push_cast <;> linarith

theorem rhe_mono {x y : ℚ} (hxy : x ≤ y) : rhe x ≤ rhe y := by
  have hf : ⌊x⌋ ≤ ⌊y⌋ := Int.floor_le_floor hxy
  rcases lt_or_eq_of_le hf with hlt | heq
  · have h1 : rhe x ≤ ⌊x⌋ + 1 := by rcases rhe_mem x with h | h <;> omega
    have h2 : ⌊y⌋ ≤ rhe y := rhe_ge_floor y
    omega
  · unfold rhe
    rw [← heq]
    have hfx : x - (⌊x⌋ : ℚ) ≤ y - (⌊x⌋ : ℚ) := by linarith
    split_ifs <;> first | omega | linarith

/-! ## Rounding to 53 significant bits -/

theorem scale_bounds (q : ℚ) (hq : 0 < q) :
    pow2 52 ≤ q * pow2 (52 - flog2 q) ∧ q * pow2 (52 - flog2 q) < pow2 53 := by
  obtain ⟨hlo, hhi⟩ := flog2_correct q hq
  constructor
  · have := mul_le_mul_of_nonneg_right hlo (le_of_lt (pow2_pos (52 - flog2 q)))
    rwa [← pow2_add, show flog2 q + (52 - flog2 q) = 52 by ring] at this
  · have := mul_lt_mul_of_pos_right hhi (pow2_pos (52 - flog2 q))
    rwa [← pow2_add, show flog2 q + 1 + (52 - flog2 q) = 53 by ring] at this

theorem rhe_scale_bounds (q : ℚ) (hq : 0 < q) :
    (2 : ℤ) ^ 52 ≤ rhe (q * pow2 (52 - flog2 q)) ∧
      rhe (q * pow2 (52 - flog2 q)) ≤ (2 : ℤ) ^ 53 := by
  obtain ⟨hlo, hhi⟩ := scale_bounds q hq
  constructor
  · refine le_trans ?_ (rhe_ge_floor _)
    rw [Int.le_floor]
    rw [pow2_eq_zpow] at hlo
    exact_mod_cast hlo
  · have h1 : (rhe (q * pow2 (52 - flog2 q)) : ℚ) ≤ q * pow2 (52 - flog2 q) + 1 / 2 :=
      rhe_le_half _
    have hp53 : pow2 53 = (((2 : ℤ) ^ 53 : ℤ) : ℚ) := by
      rw [pow2_eq_zpow]
      norm_num
    have h2 : (rhe (q * pow2 (52 - flog2 q)) : ℚ) < pow2 53 + 1 / 2 := by linarith
    rw [hp53] at h2
    have h4 : (rhe (q * pow2 (52 - flog2 q)) : ℚ) < (((2 : ℤ) ^ 53 + 1 : ℤ) : ℚ) := by
      push_cast at h2 ⊢
      linarith
    exact Int.lt_add_one_iff.1 (by exact_mod_cast h4)

theorem rndPos_pos (q : ℚ) (hq : 0 < q) : 0 < rndPos q := by
  unfold rndPos
  have h1 := (rhe_scale_bounds q hq).1
  have h2 : (0 : ℚ) < (rhe (q * pow2 (52 - flog2 q)) : ℚ) := by
    have : (0 : ℤ) < rhe (q * pow2 (52 - flog2 q)) := lt_of_lt_of_le (by positivity) h1
    exact_mod_cast this
  exact mul_pos h2 (pow2_pos _)

theorem rndPos_ge (q : ℚ) (hq : 0 < q) : pow2 (flog2 q) ≤ rndPos q := by
  unfold rndPos
  have h1 := (rhe_scale_bounds q hq).1
  have h2 : (pow2 52 : ℚ) ≤ (rhe (q * pow2 (52 - flog2 q)) : ℚ) := by
    rw [pow2_eq_zpow]
    exact_mod_cast h1
  have h3 := mul_le_mul_of_nonneg_right h2 (le_of_lt (pow2_pos (flog2 q - 52)))
  rwa [← pow2_add, show (52 : ℤ) + (flog2 q - 52) = flog2 q by ring] at h3

theorem rndPos_le (q : ℚ) (hq : 0 < q) : rndPos q ≤ pow2 (flog2 q + 1) := by
  unfold rndPos
  have h1 := (rhe_scale_bounds q hq).2
  have hp53 : pow2 53 = (((2 : ℤ) ^ 53 : ℤ) : ℚ) := by
    rw [pow2_eq_zpow]
    norm_num
  have h2 : ((rhe (q * pow2 (52 - flog2 q)) : ℤ) : ℚ) ≤ (pow2 53 : ℚ) := by
    rw [hp53]
    exact_mod_cast h1
  have h3 := mul_le_mul_of_nonneg_right h2 (le_of_lt (pow2_pos (flog2 q - 52)))
  rwa [← pow2_add, show (53 : ℤ) + (flog2 q - 52) = flog2 q + 1 by ring] at h3

theorem flog2_mono {x y : ℚ} (hx : 0 < x) (hxy : x ≤ y) : flog2 x ≤ flog2 y := by
  have hy : 0 < y := lt_of_lt_of_le hx hxy
  have h1 := (flog2_correct x hx).1
  have h2 := (flog2_correct y hy).2
  have h3 : pow2 (flog2 x) < pow2 (flog2 y + 1) := lt_of_le_of_lt (le_trans h1 hxy) h2
  have := pow2_lt_iff.1 h3
  omega

theorem rnd_zero : rnd 0 = 0 := by
  unfold rnd
  norm_num

theorem rnd_nonneg (q : ℚ) (hq : 0 ≤ q) : 0 ≤ rnd q := by
  unfold rnd
  rcases lt_or_eq_of_le hq with h | h
  · rw [if_pos h]
    exact le_of_lt (rndPos_pos q h)
  · rw [← h]
    norm_num

theorem rnd_mono {x y : ℚ} (hx : 0 ≤ x) (hxy : x ≤ y) : rnd x ≤ rnd y := by
  rcases lt_or_eq_of_le hx with hxpos | hx0
  · have hypos : 0 < y := lt_of_lt_of_le hxpos hxy
    unfold rnd
    rw [if_pos hxpos, if_pos hypos]
    rcases lt_or_eq_of_le (flog2_mono hxpos hxy) with hflt | hfeq
    · calc rndPos x ≤ pow2 (flog2 x + 1) := rndPos_le x hxpos
        _ ≤ pow2 (flog2 y) := pow2_mono (by omega)
        _ ≤ rndPos y := rndPos_ge y hypos
    · unfold rndPos
      rw [← hfeq]
      have hsc : x * pow2 (52 - flog2 x) ≤ y * pow2 (52 - flog2 x) :=
        mul_le_mul_of_nonneg_right hxy (le_of_lt (pow2_pos _))
      have hrhe : rhe (x * pow2 (52 - flog2 x)) ≤ rhe (y * pow2 (52 - flog2 x)) :=
        rhe_mono hsc
      refine mul_le_mul_of_nonneg_right ?_ (le_of_lt (pow2_pos _))
      exact_mod_cast hrhe
  · rw [← hx0]
    rw [rnd_zero]
    exact rnd_nonneg y (hx0 ▸ hxy)

/-! ## Integers up to `2^53` are binary64 fixed points -/

theorem pow2_as_int {e : ℤ} (he : 0 ≤ e) : pow2 e = (((2 : ℤ) ^ e.toNat : ℤ) : ℚ) := by
  unfold pow2
  rw [if_pos he]
  push_cast
  ring

theorem rnd_int_fix (n : ℤ) (h1 : 1 ≤ n) (h2 : n ≤ 2 ^ 53) : rnd (n : ℚ) = (n : ℚ) := by
  have hn0 : (0 : ℤ) < n := by omega
  have hq : (0 : ℚ) < (n : ℚ) := by exact_mod_cast hn0
  unfold rnd
  rw [if_pos hq]
  obtain ⟨hlo, hhi⟩ := flog2_correct (n : ℚ) hq
  have hp53 : pow2 53 = (((2 : ℤ) ^ 53 : ℤ) : ℚ) := by
    rw [pow2_eq_zpow]
    norm_num
  have hf53 : flog2 (n : ℚ) ≤ 53 := by
    by_contra hgt
    push_neg at hgt
    have hlt : pow2 53 < pow2 (flog2 (n : ℚ)) := pow2_lt_iff.2 hgt
    have : pow2 (flog2 (n : ℚ)) ≤ pow2 53 := by
      refine le_trans hlo ?_
      rw [hp53]
      exact_mod_cast h2
    linarith
  by_cases hf52 : flog2 (n : ℚ) ≤ 52
  · have he : 0 ≤ 52 - flog2 (n : ℚ) := by omega
    have hscale : (n : ℚ) * pow2 (52 - flog2 (n : ℚ)) =
        ((n * 2 ^ (52 - flog2 (n : ℚ)).toNat : ℤ) : ℚ) := by
      rw [pow2_as_int he]
      push_cast
      ring
    unfold rndPos
    rw [hscale, rhe_intCast]
    rw [← hscale]
    rw [mul_assoc, ← pow2_add, show 52 - flog2 (n : ℚ) + (flog2 (n : ℚ) - 52) = 0 by ring]
    unfold pow2
    norm_num
  · have hf : flog2 (n : ℚ) = 53 := by omega
    have hn53 : (n : ℚ) = pow2 53 := by
      refine le_antisymm ?_ ?_
      · rw [hp53]
        exact_mod_cast h2
      · rw [← hf]
        exact hlo
    have hp52 : pow2 52 = (((2 : ℤ) ^ 52 : ℤ) : ℚ) := by
      rw [pow2_eq_zpow]
      norm_num
    unfold rndPos
    rw [hf, hn53]
    rw [show (52 : ℤ) - 53 = -1 by ring, ← pow2_add,
      show (53 : ℤ) + -1 = 52 by ring, hp52, rhe_intCast, ← hp52,
      ← pow2_add, show (52 : ℤ) + (53 - 52) = 53 by ring]

/-! ## C2: `normalize_coord` under binary64 arithmetic -/

theorem truncQ_nonneg (q : ℚ) (hq : 0 ≤ q) : truncQ q = ⌊q⌋ := by
  unfold truncQ
  exact if_pos hq

theorem rnd_one : rnd (1 : ℚ) = 1 := by
  have := rnd_int_fix 1 le_rfl (by norm_num)
  push_cast at this
  exact this

unseal Rat.add Rat.mul Rat.inv Rat.sub in
set_option maxRecDepth 100000 in
/-- C2 counterexample.  `normalize_coord(290, 100)` computes `28` under the
double rounding that `int((coord / 1000.0) * max_val)` performs (0.29 is
not representable and `0.29 * 100` rounds below 29), while exact truncation
of `(290/1000)*100` is `29` — the claimed equality with exact truncation
fails. -/
theorem c2_counterexample :
    normalize_coord 290 100 = 28 ∧ truncQ ((290 : ℚ) / 1000 * 100) = 29 := by
  decide

/-- C2 as amended.  Under exact binary64 semantics (each conversion,
division and multiplication correctly rounded to nearest, ties to even),
`normalize_coord` is monotonic non-decreasing in `coord` on `[0,1000]`,
its value lies in `[0, extent]`, and `coord = 1000` yields `extent`
exactly, for every extent in `(0, 2^53]` (the integers binary64
represents exactly). -/
theorem c2_amended_normalize (coord coord2 m : ℤ)
    (h0 : 0 ≤ coord) (h1 : coord ≤ 1000)
    (h0' : 0 ≤ coord2) (h1' : coord2 ≤ 1000) (hcc : coord ≤ coord2)
    (hm0 : 0 < m) (hm : m ≤ 2 ^ 53) :
    normalize_coord coord m ≤ normalize_coord coord2 m ∧
    0 ≤ normalize_coord coord m ∧ normalize_coord coord m ≤ m ∧
    normalize_coord 1000 m = m := by
  have hrnd_c : ∀ c : ℤ, 0 ≤ c → c ≤ 1000 → rnd ((c : ℤ) : ℚ) = ((c : ℤ) : ℚ) := by
    intro c hc0 hc1
    rcases eq_or_lt_of_le hc0 with h | h
    · rw [← h]
      push_cast
      exact rnd_zero
    · have hle : (1000 : ℤ) ≤ 2 ^ 53 := by norm_num
      exact rnd_int_fix c (by omega) (by omega)
  have hrndm : rnd ((m : ℤ) : ℚ) = ((m : ℤ) : ℚ) := rnd_int_fix m (by omega) hm
  have hmq : (0 : ℚ) ≤ ((m : ℤ) : ℚ) := by exact_mod_cast le_of_lt hm0
  -- the rounded scaled coordinate lies in [0, 1]
  have hxv : ∀ c : ℤ, 0 ≤ c → c ≤ 1000 →
      0 ≤ rnd (((c : ℤ) : ℚ) / 1000) ∧ rnd (((c : ℤ) : ℚ) / 1000) ≤ 1 := by
    intro c hc0 hc1
    have hdiv0 : (0 : ℚ) ≤ ((c : ℤ) : ℚ) / 1000 := by
      apply div_nonneg
      · exact_mod_cast hc0
      · norm_num
    refine ⟨rnd_nonneg _ hdiv0, ?_⟩
    have hdiv1 : ((c : ℤ) : ℚ) / 1000 ≤ 1 := by
      rw [div_le_one (by norm_num)]
      exact_mod_cast hc1
    calc rnd (((c : ℤ) : ℚ) / 1000) ≤ rnd 1 := rnd_mono hdiv0 hdiv1
      _ = 1 := rnd_one
  -- value bounds for any admissible coordinate
  have hval : ∀ c : ℤ, 0 ≤ c → c ≤ 1000 →
      0 ≤ normalize_coord c m ∧ normalize_coord c m ≤ m := by
    intro c hc0 hc1
    unfold normalize_coord
    rw [hrnd_c c hc0 hc1, hrndm]
    obtain ⟨hx0, hx1⟩ := hxv c hc0 hc1
    have hprod0 : (0 : ℚ) ≤ rnd (((c : ℤ) : ℚ) / 1000) * ((m : ℤ) : ℚ) :=
      mul_nonneg hx0 hmq
    have hprodm : rnd (((c : ℤ) : ℚ) / 1000) * ((m : ℤ) : ℚ) ≤ ((m : ℤ) : ℚ) := by
      calc rnd (((c : ℤ) : ℚ) / 1000) * ((m : ℤ) : ℚ) ≤ 1 * ((m : ℤ) : ℚ) :=
            mul_le_mul_of_nonneg_right hx1 hmq
        _ = ((m : ℤ) : ℚ) := one_mul _
    have hr0 : (0 : ℚ) ≤ rnd (rnd (((c : ℤ) : ℚ) / 1000) * ((m : ℤ) : ℚ)) :=
      rnd_nonneg _ hprod0
    have hrm : rnd (rnd (((c : ℤ) : ℚ) / 1000) * ((m : ℤ) : ℚ)) ≤ ((m : ℤ) : ℚ) := by
      calc rnd (rnd (((c : ℤ) : ℚ) / 1000) * ((m : ℤ) : ℚ))
          ≤ rnd ((m : ℤ) : ℚ) := rnd_mono hprod0 hprodm
        _ = ((m : ℤ) : ℚ) := hrndm
    rw [truncQ_nonneg _ hr0]
    constructor
    · exact Int.floor_nonneg.2 hr0
    · calc ⌊rnd (rnd (((c : ℤ) : ℚ) / 1000) * ((m : ℤ) : ℚ))⌋ ≤ ⌊((m : ℤ) : ℚ)⌋ :=
            Int.floor_le_floor hrm
        _ = m := Int.floor_intCast m
  refine ⟨?_, (hval coord h0 h1).1, (hval coord h0 h1).2, ?_⟩
  · -- monotonicity in the coordinate
    unfold normalize_coord
    rw [hrnd_c coord h0 h1, hrnd_c coord2 h0' h1', hrndm]
    have hd0 : (0 : ℚ) ≤ ((coord : ℤ) : ℚ) / 1000 := by
      apply div_nonneg
      · exact_mod_cast h0
      · norm_num
    have hdle : ((coord : ℤ) : ℚ) / 1000 ≤ ((coord2 : ℤ) : ℚ) / 1000 := by
      apply div_le_div_of_nonneg_right ?_ (by norm_num)
      exact_mod_cast hcc
    have hx := rnd_mono hd0 hdle
    have hx0 := (hxv coord h0 h1).1
    have hprodle : rnd (((coord : ℤ) : ℚ) / 1000) * ((m : ℤ) : ℚ) ≤
        rnd (((coord2 : ℤ) : ℚ) / 1000) * ((m : ℤ) : ℚ) :=
      mul_le_mul_of_nonneg_right hx hmq
    have hprod0 : (0 : ℚ) ≤ rnd (((coord : ℤ) : ℚ) / 1000) * ((m : ℤ) : ℚ) :=
      mul_nonneg hx0 hmq
    have hrle := rnd_mono hprod0 hprodle
    have hr0 := rnd_nonneg _ hprod0
    have hr0' : (0 : ℚ) ≤ rnd (rnd (((coord2 : ℤ) : ℚ) / 1000) * ((m : ℤ) : ℚ)) :=
      rnd_nonneg _ (le_trans hprod0 hprodle)
    rw [truncQ_nonneg _ hr0, truncQ_nonneg _ hr0']
    exact Int.floor_le_floor hrle
  · -- the boundary coordinate 1000 maps to the extent exactly
    unfold normalize_coord
    rw [hrnd_c 1000 (by norm_num) le_rfl, hrndm]
    rw [show (((1000 : ℤ) : ℚ)) / 1000 = 1 by norm_num]
    rw [rnd_one, one_mul, hrndm]
    rw [truncQ_nonneg _ hmq]
    exact Int.floor_intCast m

/-- C2 amended witness: coordinates 100 and 200 with extent 864. -/
theorem c2_amended_normalize_witness :
    normalize_coord 100 864 ≤ normalize_coord 200 864 ∧
    0 ≤ normalize_coord 100 864 ∧ normalize_coord 100 864 ≤ 864 ∧
    normalize_coord 1000 864 = 864 :=
  c2_amended_normalize 100 200 864 (by decide) (by decide) (by decide) (by decide)
    (by decide) (by decide) (by decide)

/-! ## C3: the two-click annotation run -/

unseal Rat.add Rat.mul Rat.inv Rat.sub in
set_option maxRecDepth 100000 in
theorem normalize_100_1000 : normalize_coord 100 1000 = 100 := by decide

unseal Rat.add Rat.mul Rat.inv Rat.sub in
set_option maxRecDepth 100000 in
theorem normalize_900_1000 : normalize_coord 900 1000 = 900 := by decide

theorem funcSearch_lc100 :
    funcSearch (("left_click(100,100)").toList) =
      some (FuncName.left_click, ("100,100").toList) := by decide

theorem funcSearch_lc900 :
    funcSearch (("left_click(900,100)").toList) =
      some (FuncName.left_click, ("900,100").toList) := by decide

theorem parse_lc100 :
    parse_args .left_click (strip (("100,100").toList)) =
      some (.coords [100, 100]) := by decide

theorem parse_lc900 :
    parse_args .left_click (strip (("900,100").toList)) =
      some (.coords [900, 100]) := by decide

theorem annotStep_lc100 (arrowEnds : ℤ → ℤ → ℤ → ℤ → (ℤ × ℤ) × (ℤ × ℤ)) (d : ByteBuf) :
    annotStep arrowEnds 1000 1000 2 (0, d) (("left_click(100,100)").toList) =
      (1, draw_action_number (draw_circle (draw_crosshair d 1000 1000 100 100 25 RED 3)
        1000 1000 100 100 40 GREEN false) 1000 1000 130 70 1 RED) := by
  unfold annotStep
  rw [if_neg (show ¬(("left_click(100,100)").toList = ("init").toList) from by decide)]
  simp only [funcSearch_lc100, parse_lc100]
  norm_num [colorPairs, coordGet, paramsLen, normalize_100_1000]

theorem annotStep_lc900 (arrowEnds : ℤ → ℤ → ℤ → ℤ → (ℤ × ℤ) × (ℤ × ℤ)) (d : ByteBuf) :
    annotStep arrowEnds 1000 1000 2 (1, d) (("left_click(900,100)").toList) =
      (2, draw_action_number (draw_circle (draw_crosshair d 1000 1000 900 100 25 BLUE 3)
        1000 1000 900 100 40 YELLOW false) 1000 1000 930 70 2 BLUE) := by
  unfold annotStep
  rw [if_neg (show ¬(("left_click(900,100)").toList = ("init").toList) from by decide)]
  simp only [funcSearch_lc900, parse_lc900]
  norm_num [colorPairs, coordGet, paramsLen, normalize_900_1000, normalize_100_1000]

/-- C3.  With previous actions `["left_click(100,100)", "left_click(900,100)"]`
and a 1000×1000 target, the Annotation Composer draws two crosshairs whose
primary colours are colour-pair 0's `RED` and colour-pair 1's `BLUE`
(indexing `(counter-1) mod 4`), each with its hollow secondary circle, and —
because the action list has length greater than one — digit glyphs `1` and
`2` beside them. -/
theorem c3_two_clicks (arrowEnds : ℤ → ℤ → ℤ → ℤ → (ℤ × ℤ) × (ℤ × ℤ)) (rgba : ByteBuf) :
    draw_annotations arrowEnds
        [("left_click(100,100)").toList, ("left_click(900,100)").toList] rgba 1000 1000 =
      draw_action_number
        (draw_circle
          (draw_crosshair
            (draw_action_number
              (draw_circle (draw_crosshair rgba 1000 1000 100 100 25 RED 3)
                1000 1000 100 100 40 GREEN false)
              1000 1000 130 70 1 RED)
            1000 1000 900 100 25 BLUE 3)
          1000 1000 900 100 40 YELLOW false)
        1000 1000 930 70 2 BLUE := by
  unfold draw_annotations
  rw [if_neg (show ¬(ENABLE_VISUAL_FEEDBACK = false) from by decide)]
  simp only [List.length_cons, List.length_nil, List.foldl_cons, List.foldl_nil]
  rw [show (0 : ℕ) + 1 + 1 = 2 from rfl]
  rw [annotStep_lc100 arrowEnds rgba]
  rw [annotStep_lc900 arrowEnds _]
